import Mathlib

/-!
Verification of the caption-collection layer of the VisionXAI model-testing
repository (`code/caption_parsers.py`).

The Python source is shallowly embedded: strings are `List Char`, the
filesystem is an abstract record of query functions, decoded JSON values are
an inductive type, and Python dicts are association lists with Python's
insertion-order / update-in-place semantics.  Every definition is translated
from the source file; line references point into `code/caption_parsers.py`.
-/

namespace CaptionSpec

/-! ## Python string primitives -/

/-- Whitespace characters recognised by Python `str.strip()` for the ASCII
range handled by this data layer: space, tab, newline, carriage return,
vertical tab, form feed. -/
def isPyWs (c : Char) : Bool :=
  c = ' ' || c = '\t' || c = '\n' || c = '\r' || c = '\x0b' || c = '\x0c'

/-- Leading-whitespace strip (`str.lstrip`). -/
def stripL (s : List Char) : List Char := s.dropWhile isPyWs

/-- Trailing-whitespace strip (`str.rstrip`). -/
def stripR (s : List Char) : List Char := (s.reverse.dropWhile isPyWs).reverse

/-- Python `str.strip()`. -/
def strip (s : List Char) : List Char := stripR (stripL s)

/-- ASCII lowercasing of one character (Python `str.lower` on the ASCII
filenames this code inspects). -/
def lowerChar (c : Char) : Char :=
  if 'A' ≤ c ∧ c ≤ 'Z' then Char.ofNat (c.toNat + 32) else c

/-- Python `str.lower()`. -/
def lowerStr (s : List Char) : List Char := s.map lowerChar

/-- Boolean prefix test. -/
def isPre : List Char → List Char → Bool
  | [], _ => true
  | _ :: _, [] => false
  | a :: as, b :: bs => a = b && isPre as bs

/-- Boolean suffix test (Python `str.endswith`). -/
def isSuf (a b : List Char) : Bool := isPre a.reverse b.reverse

/-- Split at the first occurrence of the substring `sep`
(Python `s.split(sep, 1)` when `sep in s`); `none` when `sep` never occurs. -/
def splitFirst (sep : List Char) : List Char → Option (List Char × List Char)
  | [] => none
  | c :: rest =>
    if isPre sep (c :: rest) then some ([], (c :: rest).drop sep.length)
    else
      match splitFirst sep rest with
      | some (a, b) => some (c :: a, b)
      | none => none

/-- Python substring containment `sep in s` (for the non-empty separators used
by the source); by construction it agrees with the subsequent
`s.split(sep, 1)` call. -/
def containsSub (sep s : List Char) : Bool := (splitFirst sep s).isSome

/-- Python `s.split(None, 1)`: drop leading whitespace, take the first
whitespace-free token, then the remainder after the separating whitespace run.
Returns at most two parts. -/
def splitWs1 (s : List Char) : List (List Char) :=
  let t := s.dropWhile isPyWs
  if t = [] then []
  else
    let tok := t.takeWhile (fun c => !isPyWs c)
    let rest := (t.dropWhile (fun c => !isPyWs c)).dropWhile isPyWs
    if rest = [] then [tok] else [tok, rest]

/-- Both ends free of Python whitespace; equivalently, `strip` is the
identity on `s`. -/
def isTrimmed (s : List Char) : Bool :=
  s.head?.all (fun c => !isPyWs c) && s.getLast?.all (fun c => !isPyWs c)

/-! ## POSIX path primitives (`os.path` on the POSIX flavour) -/

/-- Python `os.path.isabs` for POSIX paths. -/
def isAbs (p : List Char) : Bool :=
  match p with
  | [] => false
  | c :: _ => c = '/'

/-- Two-argument `os.path.join` (posixpath): an absolute second part wins;
otherwise the parts are glued with a single `/` unless the first part is empty
or already ends in `/`. -/
def joinPath (a b : List Char) : List Char :=
  if isAbs b then b
  else if a = [] ∨ a.getLast? = some '/' then a ++ b
  else a ++ '/' :: b

/-- Number of significant leading slashes in `posixpath.normpath`:
exactly two slashes are preserved (a POSIX special case), any other run
collapses to one. -/
def normSlashes (p : List Char) : Nat :=
  if isPre ['/', '/'] p ∧ ¬ isPre ['/', '/', '/'] p then 2
  else if isPre ['/'] p then 1
  else 0

/-- Split a character list on every occurrence of `c` (Python `str.split('/')`). -/
def splitChar (c : Char) : List Char → List (List Char)
  | [] => [[]]
  | x :: xs =>
    match splitChar c xs with
    | [] => [[]]
    | h :: t => if x = c then [] :: h :: t else (x :: h) :: t

/-- One step of `posixpath.normpath`'s component loop: drop empty and `.`
components, fold `..` against a previous real component unless at the start of
a relative path or after an unresolved `..`. -/
def npStep (initSlashes : Nat) (acc : List (List Char)) (comp : List Char) :
    List (List Char) :=
  if comp = [] ∨ comp = ['.'] then acc
  else if comp ≠ ['.', '.'] ∨ (initSlashes = 0 ∧ acc = []) ∨
      (acc ≠ [] ∧ acc.getLast? = some ['.', '.']) then
    acc ++ [comp]
  else if acc ≠ [] then acc.dropLast
  else acc

/-- Python `'/'.join(components)`. -/
def joinComps : List (List Char) → List Char
  | [] => []
  | [c] => c
  | c :: rest => c ++ '/' :: joinComps rest

/-- Python `posixpath.normpath`. -/
def normpath (p : List Char) : List Char :=
  if p = [] then ['.']
  else
    let slashes := normSlashes p
    let comps := splitChar '/' p
    let newComps := comps.foldl (npStep slashes) []
    let out := List.replicate slashes '/' ++ joinComps newComps
    if out = [] then ['.'] else out

/-- Portion of `p` up to and including the last `/` (`p[:p.rfind('/') + 1]`). -/
def takeToLastSlash (p : List Char) : List Char :=
  (p.reverse.dropWhile (fun c => c ≠ '/')).reverse

/-- Every character is a slash (vacuously true of the empty list). -/
def allSlashes (s : List Char) : Bool := s.all (fun c => c = '/')

/-- Drop trailing slashes (`head.rstrip('/')`). -/
def rstripSlash (s : List Char) : List Char :=
  (s.reverse.dropWhile (fun c => c = '/')).reverse

/-- Python `posixpath.dirname`. -/
def dirname (p : List Char) : List Char :=
  let head := takeToLastSlash p
  if head ≠ [] ∧ ¬ allSlashes head = true then rstripSlash head else head

/-- Python `posixpath.abspath` relative to a current working directory: make the path
absolute against `cwd`, then normalise. -/
def abspathCwd (cwd p : List Char) : List Char :=
  if isAbs p then normpath p else normpath (joinPath cwd p)

/-! ## Decoded JSON values (the result of `json.load`) -/

/-- A decoded JSON value.  Numbers are modelled as integers (the caption files
this code handles carry no fractional numbers); objects are the key/value
lists `json.load` produced them from, with lookup taking the last duplicate
as Python's dict construction does. -/
inductive Json where
  | null
  | bool (b : Bool)
  | num (n : Int)
  | str (s : List Char)
  | arr (items : List Json)
  | obj (fields : List (List Char × Json))

/-- Python truthiness of a decoded JSON value (the `if c` filter on captions). -/
def pyTruthy : Json → Bool
  | .null => false
  | .bool b => b
  | .num n => n != 0
  | .str s => !s.isEmpty
  | .arr items => !items.isEmpty
  | .obj fields => !fields.isEmpty

mutual
/-- Python `repr` of a decoded JSON value (string escaping inside quotes is
not modelled; the caption data exercised here contains no quotes). -/
def pyRepr : Json → List Char
  | .null => "None".toList
  | .bool true => "True".toList
  | .bool false => "False".toList
  | .num n => (toString n).toList
  | .str s => '\x27' :: (s ++ ['\x27'])
  | .arr items => '[' :: (pyReprSeq items ++ [']'])
  | .obj fields => '\x7b' :: (pyReprFields fields ++ ['\x7d'])

/-- Comma-separated `repr` of a sequence (list rendering). -/
def pyReprSeq : List Json → List Char
  | [] => []
  | [j] => pyRepr j
  | j :: rest => pyRepr j ++ ',' :: ' ' :: pyReprSeq rest

/-- Comma-separated `repr` of dict fields. -/
def pyReprFields : List (List Char × Json) → List Char
  | [] => []
  | [kv] => '\x27' :: (kv.1 ++ '\x27' :: ':' :: ' ' :: pyRepr kv.2)
  | kv :: rest =>
    '\x27' :: (kv.1 ++ '\x27' :: ':' :: ' ' :: pyRepr kv.2) ++
      ',' :: ' ' :: pyReprFields rest
end

/-- Python `str()` of a decoded JSON value: identity on strings, `repr`-like
rendering otherwise. -/
def pyStr : Json → List Char
  | .str s => s
  | j => pyRepr j

/-- Lookup of a key in a decoded JSON object; as in a Python dict built by
`json.load`, a duplicated key keeps its last value. -/
def objGet (k : List Char) (fields : List (List Char × Json)) : Option Json :=
  fields.foldl (fun acc kv => if kv.1 = k then some kv.2 else acc) none

/-! ## The abstract filesystem

The source only ever queries the filesystem; those queries become fields.
`readLines` is the line iteration of `open(...)` (lines without their
trailing newline, which the source strips anyway), `none` modelling the
exception path of an unreadable file; `readJson` is `json.load` on an opened
file, `none` modelling both an unreadable file and a JSON decode error;
`walkOf` is the full recursive `os.walk` listing as (directory, filenames)
pairs (the `dirs` component is never used by the source).  File reads are
modelled as atomic: a read either fails up front or yields all lines. -/

structure FS where
  cwd : List Char
  pathExists : List Char → Bool
  isDir : List Char → Bool
  readLines : List Char → Option (List (List Char))
  readJson : List Char → Option Json
  walkOf : List Char → List (List Char × List (List Char))

/-! ## Python dicts as association lists -/

/-- An image-path → captions mapping (`Dict[str, List[str]]`). -/
abbrev CDict := List (List Char × List (List Char))

/-- Dict lookup. -/
def dictGet (k : List Char) : CDict → Option (List (List Char))
  | [] => none
  | kv :: t => if kv.1 = k then some kv.2 else dictGet k t

/-- Python `d[k] = v`: replace in place when the key is present, else append —
Python dict insertion-order semantics. -/
def dictInsert (k : List Char) (v : List (List Char)) : CDict → CDict
  | [] => [(k, v)]
  | kv :: t => if kv.1 = k then (k, v) :: t else kv :: dictInsert k v t

/-- Python `d.setdefault(k, []).append(c)`. -/
def sdAppend (k : List Char) (c : List Char) : CDict → CDict
  | [] => [(k, [c])]
  | kv :: t => if kv.1 = k then (kv.1, kv.2 ++ [c]) :: t else kv :: sdAppend k c t

/-- Python `d.update(e)`: write every pair of `e` into `d` in `e`'s order. -/
def dictUpdate (d e : CDict) : CDict :=
  e.foldl (fun acc kv => dictInsert kv.1 kv.2 acc) d

/-- Keep only the entries whose key satisfies `p`. -/
def dictFilterKeys (p : List Char → Bool) (d : CDict) : CDict :=
  d.filter (fun kv => p kv.1)

/-! ## `JSONCaptionParser.extract` (source lines 60-93) -/

/-- Coercion of the `caption` field to a list (lines 78-80: a non-list value
becomes a one-element list). -/
def jsonCoerce : Json → List Json
  | .arr xs => xs
  | j => [j]

/-- The caption list built at line 82:
`[str(c).strip() + " " for c in captions_raw if c]`. -/
def jsonFormatted (capj : Json) : List (List Char) :=
  (jsonCoerce capj).filterMap
    (fun c => if pyTruthy c then some (strip (pyStr c) ++ [' ']) else none)

/-- One pass over the decoded array (lines 70-85).  An element that is not an
object or lacks one of the two keys is skipped (line 74).  A `filename` value
that is not a string makes `item['filename'].strip()` raise `AttributeError`;
the handler at line 90 catches it and the function returns the mapping
gathered so far, so the traversal stops there. -/
def jsonGo (fs : FS) (imagesPath : List Char) (validate : Bool) :
    List Json → CDict → CDict
  | [], d => d
  | item :: rest, d =>
    match item with
    | .obj fields =>
      match objGet ("filename".toList) fields with
      | none => jsonGo fs imagesPath validate rest d
      | some fn =>
        match objGet ("caption".toList) fields with
        | none => jsonGo fs imagesPath validate rest d
        | some capj =>
          match fn with
          | .str fnStr =>
            let imgNameAbs := joinPath imagesPath (strip fnStr)
            let formatted := jsonFormatted capj
            let d' :=
              if !validate || fs.pathExists imgNameAbs then
                if formatted = [] then d else dictInsert imgNameAbs formatted d
              else d
            jsonGo fs imagesPath validate rest d'
          | _ => d
    | _ => jsonGo fs imagesPath validate rest d

/-- The method `JSONCaptionParser.extract`.  Here `readJson` returning `none` covers both an
unreadable file and a JSON decode error (handlers at lines 88-91), each
returning the empty mapping; a root that is not an array returns the empty
mapping with a warning (lines 66-68). -/
def jsonExtract (fs : FS) (filePath imagesPath : List Char) (validate : Bool) :
    CDict :=
  match fs.readJson filePath with
  | some (.arr items) => jsonGo fs imagesPath validate items []
  | _ => []

/-! ## `TXTCaptionParser.extract` (source lines 109-161) -/

/-- Delimiter detection of lines 125-133: a 3-space run, else space-hash,
else bare hash, else the line is skipped.  When a delimiter is present,
`split(delim, 1)` yields exactly two parts, so the `len(parts) < 2` guard at
line 135 never fires. -/
def txtLineSplit (line : List Char) : Option (List Char × List Char) :=
  if containsSub ("   ".toList) line then splitFirst ("   ".toList) line
  else if containsSub (" #".toList) line then splitFirst (" #".toList) line
  else if containsSub ("#".toList) line then splitFirst ("#".toList) line
  else none

/-- Processing of one raw line of the text file (lines 120-149). -/
def txtStep (fs : FS) (imagesPath : List Char) (validate : Bool)
    (d : CDict) (rawLine : List Char) : CDict :=
  let line := strip rawLine
  if line = [] then d
  else
    match txtLineSplit line with
    | none => d
    | some ab =>
      let imgName := strip ab.1
      let cap := strip ab.2
      if imgName = [] ∨ cap = [] then d
      else
        let imgPathAbs := joinPath imagesPath imgName
        if !validate || fs.pathExists imgPathAbs then sdAppend imgPathAbs cap d
        else d

/-- The method `TXTCaptionParser.extract`; an unreadable file returns the empty mapping
(handlers at lines 156-159). -/
def txtExtract (fs : FS) (filePath imagesPath : List Char) (validate : Bool) :
    CDict :=
  match fs.readLines filePath with
  | none => []
  | some lns => lns.foldl (txtStep fs imagesPath validate) []

/-! ## `collect_all_caption_data` (source lines 166-308) -/

/-- BNATURE caption-file line splitting (lines 218-228): the three delimiters
of the text parser, then a generic whitespace split as a final fallback,
skipping the line when that yields fewer than two parts. -/
def capLineSplit (ln : List Char) : Option (List Char × List Char) :=
  if containsSub ("   ".toList) ln then splitFirst ("   ".toList) ln
  else if containsSub (" #".toList) ln then splitFirst (" #".toList) ln
  else if containsSub ("#".toList) ln then splitFirst ("#".toList) ln
  else
    match splitWs1 ln with
    | [a, b] => some (a, b)
    | _ => none

/-- One line of `caption.txt` into the name → captions map
(lines 213-232): both parts are stripped and the pair is kept only when both
are non-empty. -/
def bnatureCapStep (d : CDict) (rawLn : List Char) : CDict :=
  let ln := strip rawLn
  if ln = [] then d
  else
    match capLineSplit ln with
    | none => d
    | some ab =>
      let imgname := strip ab.1
      let cap := strip ab.2
      if imgname ≠ [] ∧ cap ≠ [] then sdAppend imgname cap d else d

/-- The name → captions map read from `caption.txt` (lines 209-234): built
only when the file exists; a read failure leaves the map empty. -/
def bnatureCapMap (fs : FS) (captionsFile : List Char) : CDict :=
  if fs.pathExists captionsFile then
    match fs.readLines captionsFile with
    | none => []
    | some lns => lns.foldl bnatureCapStep []
  else []

/-- The image filenames listed in `test.txt` (lines 198-206): stripped,
blank lines dropped, empty on a read failure. -/
def bnatureTestNames (fs : FS) (filePath : List Char) : List (List Char) :=
  match fs.readLines filePath with
  | none => []
  | some lns => (lns.map strip).filter (fun l => l ≠ [])

/-- The `Pictures` directory of the BNATURE layout (lines 192-194):
`<parent of the test.txt directory>/Pictures`. -/
def bnaturePicturesDir (filePath : List Char) : List Char :=
  joinPath (normpath (joinPath (dirname filePath) ("..".toList))) ("Pictures".toList)

/-- One name from `test.txt` into the per-file result (lines 237-243): names
with no captions are skipped; the key is the absolute `Pictures` path and
assignment overwrites (`captions[...] = caps`). -/
def bnatureStep (fs : FS) (validate : Bool) (picturesDir : List Char)
    (capMap : CDict) (d : CDict) (imgname : List Char) : CDict :=
  let caps := (dictGet imgname capMap).getD []
  if caps = [] then d
  else
    let imgPath := joinPath picturesDir imgname
    if !validate || fs.pathExists imgPath then
      dictInsert (abspathCwd fs.cwd imgPath) caps d
    else d

/-- The name → captions map of the BNATURE branch, located next to the
`test.txt` file (line 195). -/
def bnatureCapMapOf (fs : FS) (filePath : List Char) : CDict :=
  bnatureCapMap fs (joinPath (dirname filePath) ("caption.txt".toList))

/-- The whole BNATURE `test.txt` branch (lines 188-243). -/
def bnatureCaptions (fs : FS) (validate : Bool) (filePath : List Char) : CDict :=
  (bnatureTestNames fs filePath).foldl
    (bnatureStep fs validate (bnaturePicturesDir filePath) (bnatureCapMapOf fs filePath)) []

/-- The fixed resized-images folder name of the BNLIT layout (line 257). -/
def resizedFolder : List Char :=
  ("Bangla Natural Language Image to Text (BNLIT)-Preprocessing and Resizing Dataset-resized-500_375".toList)

/-- BNLIT images-directory resolution (lines 258-266): the resized folder
under the file's directory when that is a directory, else the file's
directory itself when it is one, else its parent. -/
def bnlitImagesDir (fs : FS) (bnlitRoot : List Char) : List Char :=
  let imagesDir := joinPath bnlitRoot resizedFolder
  if fs.isDir imagesDir then imagesDir
  else if fs.isDir bnlitRoot then bnlitRoot
  else normpath (joinPath bnlitRoot ("..".toList))

/-- BNLIT annotation line splitting (lines 275-283): space-hash, else bare
hash, else a generic whitespace split skipping lines with fewer than two
parts.  There is no 3-space delimiter in this branch. -/
def bnlitLineSplit (ln : List Char) : Option (List Char × List Char) :=
  if containsSub (" #".toList) ln then splitFirst (" #".toList) ln
  else if containsSub ("#".toList) ln then splitFirst ("#".toList) ln
  else
    match splitWs1 ln with
    | [a, b] => some (a, b)
    | _ => none

/-- One BNLIT annotation line into the per-file result (lines 271-288): both
parts are stripped but, unlike the text parser, neither is required to be
non-empty; append semantics via `setdefault`. -/
def bnlitStep (fs : FS) (validate : Bool) (imagesDir : List Char)
    (d : CDict) (rawLn : List Char) : CDict :=
  let ln := strip rawLn
  if ln = [] then d
  else
    match bnlitLineSplit ln with
    | none => d
    | some ab =>
      let imgname := strip ab.1
      let cap := strip ab.2
      let imgPath := joinPath imagesDir imgname
      if !validate || fs.pathExists imgPath then
        sdAppend (abspathCwd fs.cwd imgPath) cap d
      else d

/-- The whole BNLIT test-annotation branch (lines 252-290); a read failure
leaves the per-file result empty. -/
def bnlitCaptions (fs : FS) (validate : Bool) (filePath : List Char) : CDict :=
  let bnlitRoot := dirname filePath
  let imagesDir := bnlitImagesDir fs bnlitRoot
  match fs.readLines filePath with
  | none => []
  | some lns => lns.foldl (bnlitStep fs validate imagesDir) []

/-- The words of the generic skip rule (line 297). -/
def skipWords : List (List Char) :=
  ["train".toList, "validation".toList, "val".toList, "caption".toList]

/-- The long literal prefix naming the BNLIT dataset (lines 252-253). -/
def bnlitLongMarker : List Char :=
  ("test-annotation-bangla natural language image to text".toList)

/-- The BNATURE filename test (line 188). -/
def fileKindBnature (lowerFile : List Char) : Bool :=
  lowerFile = ("test.txt".toList)

/-- The BNLIT filename test (lines 252-253). -/
def fileKindBnlit (lowerFile : List Char) : Bool :=
  (containsSub ("test-annotation".toList) lowerFile &&
      containsSub ("bnlit".toList) lowerFile) ||
    isPre bnlitLongMarker lowerFile

/-- Per-file dispatch of the collector's walk body (lines 178-298): the
BNATURE rule, else the BNLIT rule, else — for a `.txt`/`.json` name — the
generic skip-word test, whose two outcomes (`continue` and falling through)
both leave the per-file captions dict empty; any other file also contributes
nothing. -/
def processFile (fs : FS) (validate : Bool) (root file : List Char) : CDict :=
  let lowerFile := lowerStr file
  let filePath := joinPath root file
  if fileKindBnature lowerFile then bnatureCaptions fs validate filePath
  else if fileKindBnlit lowerFile then bnlitCaptions fs validate filePath
  else if isSuf (".txt".toList) lowerFile || isSuf (".json".toList) lowerFile then
    if skipWords.any (fun w => containsSub w lowerFile) then [] else []
  else []

/-- The merge of one per-file result into the accumulator (lines 303-305):
`dict.update`, applied only when the per-file dict is non-empty. -/
def mergeStep (acc captions : CDict) : CDict :=
  if captions ≠ [] then dictUpdate acc captions else acc

/-- The function `collect_all_caption_data` (lines 166-308): fold the per-file results
over the `os.walk` listing, merging each with `dict.update`. -/
def collectAllCaptionData (fs : FS) (baseDir : List Char) (validate : Bool) :
    CDict :=
  (fs.walkOf baseDir).foldl
    (fun acc rootFiles =>
      rootFiles.2.foldl
        (fun acc2 file => mergeStep acc2 (processFile fs validate rootFiles.1 file))
        acc)
    []

/-- The function together with its error channel.  Every per-file read in the
source is wrapped in a try/except, and `os.walk` runs with its default
`onerror=None`, which silently ignores scandir failures; no exception can
escape `collect_all_caption_data`, so the error case of this type is never
produced. -/
def collectAllCaptionDataE (fs : FS) (baseDir : List Char) (validate : Bool) :
    Except (List Char) CDict :=
  Except.ok (collectAllCaptionData fs baseDir validate)

/-! ## Derived notions used by the statements -/

/-- Every value of the dict satisfies `P`. -/
def ValsP (P : List (List Char) → Prop) (d : CDict) : Prop := ∀ kv ∈ d, P kv.2

/-- Every key of the dict satisfies `Q`. -/
def KeysP (Q : List Char → Prop) (d : CDict) : Prop := ∀ kv ∈ d, Q kv.1

/-- The keys of the dict are pairwise distinct; true of every dict the source
builds, since `dictInsert` and `sdAppend` never duplicate a key. -/
def KeysND (d : CDict) : Prop := (d.map Prod.fst).Nodup

/-- Caption-list shape produced by the text parser: a non-empty list of
non-empty trimmed captions. -/
def GoodTxtCaps (caps : List (List Char)) : Prop :=
  caps ≠ [] ∧ ∀ c ∈ caps, c ≠ [] ∧ isTrimmed c = true

/-- Caption-list shape produced by the JSON parser: a non-empty list whose
members are a trimmed (possibly empty) string plus exactly one trailing
space. -/
def GoodJsonCaps (caps : List (List Char)) : Prop :=
  caps ≠ [] ∧ ∀ c ∈ caps, ∃ s, isTrimmed s = true ∧ c = s ++ [' ']

/-- Caption-list shape produced by the collector: a non-empty list of trimmed
(possibly empty) captions. -/
def GoodColCaps (caps : List (List Char)) : Prop :=
  caps ≠ [] ∧ ∀ c ∈ caps, isTrimmed c = true

/-- The filesystem treats a path and its absolutised form alike — true of a
real filesystem, where `os.path.abspath` does not change which file a path
names. -/
def AbsCoherent (fs : FS) : Prop :=
  ∀ p, fs.pathExists (abspathCwd fs.cwd p) = fs.pathExists p

/-- The key under which one decoded JSON element inserts its captions, when
it inserts at all (both keys present, a string filename, a surviving caption,
and a passing image check). -/
def jsonInsKey (fs : FS) (imagesPath : List Char) (validate : Bool) :
    Json → Option (List Char)
  | .obj fields =>
    match objGet ("filename".toList) fields with
    | none => none
    | some fn =>
      match objGet ("caption".toList) fields with
      | none => none
      | some capj =>
        match fn with
        | .str fnStr =>
          let key := joinPath imagesPath (strip fnStr)
          if (!validate || fs.pathExists key) && !(jsonFormatted capj).isEmpty then
            some key
          else none
        | _ => none
  | _ => none

/-- Whether one decoded JSON element makes `item['filename'].strip()` raise:
both keys present but `filename` not a string. -/
def jsonAborts : Json → Bool
  | .obj fields =>
    match objGet ("filename".toList) fields with
    | none => false
    | some fn =>
      match objGet ("caption".toList) fields with
      | none => false
      | some _ =>
        match fn with
        | .str _ => false
        | _ => true
  | _ => false

/-- The per-file dicts the collector merges, in walk order. -/
def perFileDicts (fs : FS) (baseDir : List Char) (validate : Bool) : List CDict :=
  (fs.walkOf baseDir).flatMap (fun rf => rf.2.map (processFile fs validate rf.1))

/-- The key under which one `test.txt` name inserts its captions, when it
inserts at all. -/
def bnatureKeyOf (fs : FS) (validate : Bool) (picturesDir : List Char)
    (capMap : CDict) (imgname : List Char) : Option (List Char) :=
  if (dictGet imgname capMap).getD [] = [] then none
  else if !validate || fs.pathExists (joinPath picturesDir imgname) then
    some (abspathCwd fs.cwd (joinPath picturesDir imgname))
  else none

/-! ## Concrete filesystems for counterexamples and witnesses -/

/-- A tree holding one generic JSON caption file (`data.json`, matched by no
skip word and by no dataset-specific rule) whose content is a well-formed
caption array. -/
def fsGenericJson : FS where
  cwd := ("/w".toList)
  pathExists := fun _ => true
  isDir := fun _ => true
  readLines := fun _ => none
  readJson := fun p =>
    if p = ("/d/data.json".toList) then
      some (.arr [.obj [(("filename".toList), .str ("a.jpg".toList)),
                        (("caption".toList), .str ("hi".toList))]])
    else none
  walkOf := fun b =>
    if b = ("/d".toList) then [(("/d".toList), [("data.json".toList)])] else []

/-- A tree holding one BNLIT annotation file whose single line `1.png #` has
an empty caption after the delimiter, and one JSON caption file whose single
caption is the truthy whitespace string `" "`. -/
def fsEdgeCaps : FS where
  cwd := ("/w".toList)
  pathExists := fun _ => false
  isDir := fun p => p = ("/d".toList)
  readLines := fun p =>
    if p = ("/d/test-annotation-bnlit.txt".toList) then some [("1.png #".toList)]
    else none
  readJson := fun p =>
    if p = ("/c.json".toList) then
      some (.arr [.obj [(("filename".toList), .str ("a.jpg".toList)),
                        (("caption".toList), .str (" ".toList))]])
    else none
  walkOf := fun b =>
    if b = ("/d".toList) then
      [(("/d".toList), [("test-annotation-bnlit.txt".toList)])]
    else []

/-- A filesystem with no directories and no files at all. -/
def fsEmpty : FS where
  cwd := ("/w".toList)
  pathExists := fun _ => false
  isDir := fun _ => false
  readLines := fun _ => none
  readJson := fun _ => none
  walkOf := fun _ => []

/-- A tree holding one JSON caption file whose single element carries both
required keys but a falsy (empty-string) caption. -/
def fsFalsyCaption : FS where
  cwd := ("/w".toList)
  pathExists := fun _ => true
  isDir := fun _ => false
  readLines := fun _ => none
  readJson := fun p =>
    if p = ("/c.json".toList) then
      some (.arr [.obj [(("filename".toList), .str ("a.jpg".toList)),
                        (("caption".toList), .str ([]))]])
    else none
  walkOf := fun _ => []

/-- A tree holding one delimited text file whose single line names an
absolute image path. -/
def fsAbsName : FS where
  cwd := ("/w".toList)
  pathExists := fun _ => false
  isDir := fun _ => false
  readLines := fun p =>
    if p = ("/f.txt".toList) then some [("/a.png#x".toList)] else none
  readJson := fun _ => none
  walkOf := fun _ => []

/-- The BNATURE layout of the spec scenario: `caption/test.txt` lists
`img1.jpg`, `caption/caption.txt` carries its caption, and
`Pictures/img1.jpg` exists. -/
def fsBnature : FS where
  cwd := ("/w".toList)
  pathExists := fun p =>
    p = ("/data/test/BNATURE/caption/caption.txt".toList) ∨
      p = ("/data/test/BNATURE/Pictures/img1.jpg".toList)
  isDir := fun _ => false
  readLines := fun p =>
    if p = ("/data/test/BNATURE/caption/test.txt".toList) then
      some [("img1.jpg".toList)]
    else if p = ("/data/test/BNATURE/caption/caption.txt".toList) then
      some [("img1.jpg#a caption".toList)]
    else none
  readJson := fun _ => none
  walkOf := fun b =>
    if b = ("/data/test".toList) then
      [(("/data/test/BNATURE/caption".toList), [("test.txt".toList)])]
    else []

/-- The BNLIT layout of the spec scenario: the resized folder is missing, the
BNLIT directory itself exists and holds `1.png`, and the annotation file
carries one `1.png #a caption` line. -/
def fsBnlit : FS where
  cwd := ("/w".toList)
  pathExists := fun p => p = ("/data/test/BNLIT/1.png".toList)
  isDir := fun p => p = ("/data/test/BNLIT".toList)
  readLines := fun p =>
    if p = ("/data/test/BNLIT/Test-Annotation-BNLIT.txt".toList) then
      some [("1.png #a caption".toList)]
    else none
  readJson := fun _ => none
  walkOf := fun b =>
    if b = ("/data/test".toList) then
      [(("/data/test/BNLIT".toList), [("Test-Annotation-BNLIT.txt".toList)])]
    else []

/-- Two BNLIT-style annotation files in one walk writing the same image key
with different captions: `b.txt` is processed after `a.txt`. -/
def fsTwoFiles : FS where
  cwd := ("/w".toList)
  pathExists := fun _ => true
  isDir := fun p => p = ("/d".toList)
  readLines := fun p =>
    if p = ("/d/a-test-annotation-bnlit.txt".toList) then some [("1.png #first".toList)]
    else if p = ("/d/b-test-annotation-bnlit.txt".toList) then some [("1.png #second".toList)]
    else none
  readJson := fun _ => none
  walkOf := fun b =>
    if b = ("/d".toList) then
      [(("/d".toList),
        [("a-test-annotation-bnlit.txt".toList), ("b-test-annotation-bnlit.txt".toList)])]
    else []

/-- A delimited text file with two captions for one image and assorted
malformed lines, over a filesystem where every path exists. -/
def fsTxt : FS where
  cwd := ("/w".toList)
  pathExists := fun _ => true
  isDir := fun _ => false
  readLines := fun p =>
    if p = ("/f.txt".toList) then
      some [("a.jpg   hello world".toList), ("a.jpg   second caption".toList),
            ("no delims here".toList), ("x.png# ".toList)]
    else none
  readJson := fun p =>
    if p = ("/c.json".toList) then
      some (.arr [.obj [(("filename".toList), .str ("a.jpg".toList)),
                        (("caption".toList), .arr [.str ("one".toList), .str ([]),
                                                   .str ("two ".toList)])]])
    else none
  walkOf := fun _ => []

/-! ## Lemmas: stripping and trimmedness -/

theorem head?_dropWhile_false {p : Char → Bool} {l : List Char} {c : Char}
    (h : (l.dropWhile p).head? = some c) : p c = false := by
  have hm := List.head?_dropWhile_not p l
  rw [h] at hm
  exact hm

theorem stripR_prefix (s : List Char) : stripR s <+: s := by
  have h : s.reverse.dropWhile isPyWs <:+ s.reverse := List.dropWhile_suffix _
  have h2 := List.reverse_prefix.mpr h
  rwa [List.reverse_reverse] at h2

theorem isTrimmed_strip (s : List Char) : isTrimmed (strip s) = true := by
  refine (Bool.and_eq_true _ _).mpr ⟨?_, ?_⟩
  · cases hh : (strip s).head? with
    | none => rfl
    | some c =>
      have hpre : strip s <+: stripL s := stripR_prefix (stripL s)
      obtain ⟨t, ht⟩ := hpre
      cases hst : strip s with
      | nil => rw [hst] at hh; cases hh
      | cons c0 t0 =>
        rw [hst] at hh ht
        have hc : c = c0 := by
          simp only [List.head?] at hh
          exact (Option.some.injEq _ _ ▸ hh).symm
        have hL : (s.dropWhile isPyWs).head? = some c0 := by
          show (stripL s).head? = some c0
          rw [← ht]; rfl
        have := head?_dropWhile_false hL
        simp [hc, this]
  · cases hh : (strip s).getLast? with
    | none => rfl
    | some c =>
      have hEq : (strip s).getLast? = ((stripL s).reverse.dropWhile isPyWs).head? := by
        show (((stripL s).reverse.dropWhile isPyWs).reverse).getLast? = _
        rw [List.getLast?_reverse]
      rw [hh] at hEq
      have := head?_dropWhile_false hEq.symm
      simp [this]

/-! ## Lemmas: dict operations -/

theorem dictGet_insert (k k' : List Char) (v : List (List Char)) (d : CDict) :
    dictGet k (dictInsert k' v d) = if k' = k then some v else dictGet k d := by
  induction d with
  | nil =>
    by_cases h : k' = k <;> simp [dictInsert, dictGet, h]
  | cons kv t ih =>
    by_cases h1 : kv.1 = k'
    · subst h1
      by_cases h2 : kv.1 = k <;> simp [dictInsert, dictGet, h2]
    · by_cases h2 : kv.1 = k
      · subst h2
        have : ¬ (k' = kv.1) := fun h => h1 h.symm
        simp [dictInsert, dictGet, h1, this]
      · simp [dictInsert, dictGet, h1, h2, ih]

theorem dictGet_sdAppend (k k' : List Char) (c : List Char) (d : CDict) :
    dictGet k (sdAppend k' c d) =
      if k' = k then some ((dictGet k' d).getD [] ++ [c]) else dictGet k d := by
  induction d with
  | nil =>
    by_cases h : k' = k <;> simp [sdAppend, dictGet, h]
  | cons kv t ih =>
    by_cases h1 : kv.1 = k'
    · subst h1
      by_cases h2 : kv.1 = k <;> simp [sdAppend, dictGet, h2]
    · by_cases h2 : kv.1 = k
      · subst h2
        have : ¬ (k' = kv.1) := fun h => h1 h.symm
        simp [sdAppend, dictGet, h1, this]
      · simp [sdAppend, dictGet, h1, h2, ih]

theorem dictGet_mem {k : List Char} {v : List (List Char)} {d : CDict}
    (h : dictGet k d = some v) : (k, v) ∈ d := by
  induction d with
  | nil => cases h
  | cons kv t ih =>
    by_cases h1 : kv.1 = k
    · simp only [dictGet, h1, if_pos] at h
      have : kv = (k, v) := by
        cases kv
        simp_all
      rw [← this]
      exact List.mem_cons_self _ _
    · simp only [dictGet, h1, if_neg, if_false] at h
      exact List.mem_cons_of_mem _ (ih h)

theorem valsP_nil {P : List (List Char) → Prop} : ValsP P [] :=
  fun kv h => absurd h (List.not_mem_nil kv)

theorem keysP_nil {Q : List Char → Prop} : KeysP Q [] :=
  fun kv h => absurd h (List.not_mem_nil kv)

theorem mem_dictInsert {kv : List Char × List (List Char)}
    {k : List Char} {v : List (List Char)} {d : CDict}
    (h : kv ∈ dictInsert k v d) : kv = (k, v) ∨ kv ∈ d := by
  induction d with
  | nil => simpa [dictInsert] using h
  | cons kv0 t ih =>
    by_cases h1 : kv0.1 = k
    · simp only [dictInsert, h1, if_pos] at h
      rcases List.mem_cons.mp h with h2 | h2
      · exact Or.inl h2
      · exact Or.inr (List.mem_cons_of_mem _ h2)
    · simp only [dictInsert, h1, if_neg, if_false] at h
      rcases List.mem_cons.mp h with h2 | h2
      · exact Or.inr (h2 ▸ List.mem_cons_self _ _)
      · rcases ih h2 with h3 | h3
        · exact Or.inl h3
        · exact Or.inr (List.mem_cons_of_mem _ h3)

theorem mem_sdAppend {kv : List Char × List (List Char)}
    {k : List Char} {c : List Char} {d : CDict}
    (h : kv ∈ sdAppend k c d) :
    kv = (k, [c]) ∨ kv ∈ d ∨ ∃ kv' ∈ d, kv = (kv'.1, kv'.2 ++ [c]) := by
  induction d with
  | nil => simp only [sdAppend] at h; simpa using h
  | cons kv0 t ih =>
    by_cases h1 : kv0.1 = k
    · simp only [sdAppend, h1, if_pos] at h
      rcases List.mem_cons.mp h with h2 | h2
      · exact Or.inr (Or.inr ⟨kv0, List.mem_cons_self _ _, by rw [h1]; exact h2⟩)
      · exact Or.inr (Or.inl (List.mem_cons_of_mem _ h2))
    · simp only [sdAppend, h1, if_neg, if_false] at h
      rcases List.mem_cons.mp h with h2 | h2
      · exact Or.inr (Or.inl (h2 ▸ List.mem_cons_self _ _))
      · rcases ih h2 with h3 | h3 | ⟨kv', hm, he⟩
        · exact Or.inl h3
        · exact Or.inr (Or.inl (List.mem_cons_of_mem _ h3))
        · exact Or.inr (Or.inr ⟨kv', List.mem_cons_of_mem _ hm, he⟩)

theorem valsP_dictInsert {P : List (List Char) → Prop}
    {k : List Char} {v : List (List Char)} {d : CDict}
    (hv : P v) (hd : ValsP P d) : ValsP P (dictInsert k v d) := by
  intro kv hm
  rcases mem_dictInsert hm with h | h
  · rw [h]; exact hv
  · exact hd kv h

theorem valsP_sdAppend {P : List (List Char) → Prop}
    {k : List Char} {c : List Char} {d : CDict}
    (h1 : P [c]) (h2 : ∀ v, P v → P (v ++ [c])) (hd : ValsP P d) :
    ValsP P (sdAppend k c d) := by
  intro kv hm
  rcases mem_sdAppend hm with h | h | ⟨kv', hm', he⟩
  · rw [h]; exact h1
  · exact hd kv h
  · rw [he]; exact h2 _ (hd kv' hm')

theorem valsP_dictUpdate {P : List (List Char) → Prop} {d e : CDict}
    (hd : ValsP P d) (he : ValsP P e) : ValsP P (dictUpdate d e) := by
  induction e generalizing d with
  | nil => exact hd
  | cons kv t ih =>
    have h1 : P kv.2 := he kv (List.mem_cons_self _ _)
    have h2 : ValsP P t := fun kv' hm => he kv' (List.mem_cons_of_mem _ hm)
    exact ih (valsP_dictInsert h1 hd) h2

theorem keysP_dictInsert {Q : List Char → Prop}
    {k : List Char} {v : List (List Char)} {d : CDict}
    (hk : Q k) (hd : KeysP Q d) : KeysP Q (dictInsert k v d) := by
  intro kv hm
  rcases mem_dictInsert hm with h | h
  · rw [h]; exact hk
  · exact hd kv h

theorem keysP_sdAppend {Q : List Char → Prop}
    {k : List Char} {c : List Char} {d : CDict}
    (hk : Q k) (hd : KeysP Q d) : KeysP Q (sdAppend k c d) := by
  intro kv hm
  rcases mem_sdAppend hm with h | h | ⟨kv', hm', he⟩
  · rw [h]; exact hk
  · exact hd kv h
  · rw [he]; exact hd kv' hm'

theorem keysP_dictUpdate {Q : List Char → Prop} {d e : CDict}
    (hd : KeysP Q d) (he : KeysP Q e) : KeysP Q (dictUpdate d e) := by
  induction e generalizing d with
  | nil => exact hd
  | cons kv t ih =>
    have h1 : Q kv.1 := he kv (List.mem_cons_self _ _)
    have h2 : KeysP Q t := fun kv' hm => he kv' (List.mem_cons_of_mem _ hm)
    exact ih (keysP_dictInsert h1 hd) h2

/-- A generic fold-invariant preservation principle. -/
theorem foldl_preserve {β : Type} {Inv : CDict → Prop} (step : CDict → β → CDict)
    (hstep : ∀ d b, Inv d → Inv (step d b)) :
    ∀ (l : List β) (d : CDict), Inv d → Inv (l.foldl step d) := by
  intro l
  induction l with
  | nil => intro d hd; exact hd
  | cons b t ih => intro d hd; exact ih _ (hstep d b hd)

theorem keysND_nil : KeysND [] := List.nodup_nil

theorem mem_keys_dictInsert {k' k : List Char} {v : List (List Char)} {d : CDict}
    (h : k' ∈ (dictInsert k v d).map Prod.fst) :
    k' = k ∨ k' ∈ d.map Prod.fst := by
  rcases List.mem_map.mp h with ⟨kv, hm, he⟩
  rcases mem_dictInsert hm with h1 | h1
  · left; rw [← he, h1]
  · right; exact List.mem_map.mpr ⟨kv, h1, he⟩

theorem mem_keys_sdAppend {k' k : List Char} {c : List Char} {d : CDict}
    (h : k' ∈ (sdAppend k c d).map Prod.fst) :
    k' = k ∨ k' ∈ d.map Prod.fst := by
  rcases List.mem_map.mp h with ⟨kv, hm, he⟩
  rcases mem_sdAppend hm with h1 | h1 | ⟨kv', hm', he'⟩
  · left; rw [← he, h1]
  · right; exact List.mem_map.mpr ⟨kv, h1, he⟩
  · right
    refine List.mem_map.mpr ⟨kv', hm', ?_⟩
    rw [← he, he']

theorem keysND_dictInsert {k : List Char} {v : List (List Char)} {d : CDict}
    (hd : KeysND d) : KeysND (dictInsert k v d) := by
  induction d with
  | nil => simp [dictInsert, KeysND]
  | cons kv t ih =>
    have h1 : kv.1 ∉ t.map Prod.fst := (List.nodup_cons.mp hd).1
    have h2 : KeysND t := (List.nodup_cons.mp hd).2
    by_cases hk : kv.1 = k
    · show KeysND (if kv.1 = k then (k, v) :: t else kv :: dictInsert k v t)
      rw [if_pos hk]
      exact List.nodup_cons.mpr ⟨hk ▸ h1, h2⟩
    · show KeysND (if kv.1 = k then (k, v) :: t else kv :: dictInsert k v t)
      rw [if_neg hk]
      refine List.nodup_cons.mpr ⟨?_, ih h2⟩
      intro hmem
      rcases mem_keys_dictInsert hmem with h | h
      · exact hk h
      · exact h1 h

theorem keysND_sdAppend {k : List Char} {c : List Char} {d : CDict}
    (hd : KeysND d) : KeysND (sdAppend k c d) := by
  induction d with
  | nil => simp [sdAppend, KeysND]
  | cons kv t ih =>
    have h1 : kv.1 ∉ t.map Prod.fst := (List.nodup_cons.mp hd).1
    have h2 : KeysND t := (List.nodup_cons.mp hd).2
    by_cases hk : kv.1 = k
    · show KeysND (if kv.1 = k then (kv.1, kv.2 ++ [c]) :: t else kv :: sdAppend k c t)
      rw [if_pos hk]
      exact List.nodup_cons.mpr ⟨h1, h2⟩
    · show KeysND (if kv.1 = k then (kv.1, kv.2 ++ [c]) :: t else kv :: sdAppend k c t)
      rw [if_neg hk]
      refine List.nodup_cons.mpr ⟨?_, ih h2⟩
      intro hmem
      rcases mem_keys_sdAppend hmem with h | h
      · exact hk h
      · exact h1 h

theorem dictGet_eq_none_of_not_mem {k : List Char} {d : CDict}
    (h : k ∉ d.map Prod.fst) : dictGet k d = none := by
  induction d with
  | nil => rfl
  | cons kv t ih =>
    have h1 : kv.1 ≠ k := by
      intro he
      exact h (List.mem_map.mpr ⟨kv, List.mem_cons_self _ _, he⟩)
    have h2 : k ∉ t.map Prod.fst := fun hm => h (List.mem_cons_of_mem _ hm)
    show (if kv.1 = k then some kv.2 else dictGet k t) = none
    rw [if_neg h1]
    exact ih h2

theorem dictGet_dictUpdate_none {k : List Char} {d e : CDict}
    (he : dictGet k e = none) : dictGet k (dictUpdate d e) = dictGet k d := by
  induction e generalizing d with
  | nil => rfl
  | cons kv t ih =>
    have h1 : kv.1 ≠ k := by
      intro h
      simp [dictGet, h] at he
    have h2 : dictGet k t = none := by
      simpa [dictGet, h1] using he
    show dictGet k (dictUpdate (dictInsert kv.1 kv.2 d) t) = dictGet k d
    rw [ih h2, dictGet_insert, if_neg h1]

theorem dictGet_dictUpdate_some {k : List Char} {v : List (List Char)} {d e : CDict}
    (hnd : KeysND e) (he : dictGet k e = some v) :
    dictGet k (dictUpdate d e) = some v := by
  induction e generalizing d with
  | nil => cases he
  | cons kv t ih =>
    have h1 : kv.1 ∉ t.map Prod.fst := (List.nodup_cons.mp hnd).1
    have h2 : KeysND t := (List.nodup_cons.mp hnd).2
    by_cases hk : kv.1 = k
    · have hv : v = kv.2 := by
        simp only [dictGet, hk, if_pos] at he
        exact (Option.some.injEq _ _ ▸ he).symm
      have ht : dictGet k t = none := dictGet_eq_none_of_not_mem (hk ▸ h1)
      show dictGet k (dictUpdate (dictInsert kv.1 kv.2 d) t) = some v
      rw [dictGet_dictUpdate_none ht, dictGet_insert, if_pos hk, hv]
    · have ht : dictGet k t = some v := by
        simpa [dictGet, hk] using he
      exact ih h2 ht

theorem dictFilterKeys_nil (P : List Char → Bool) : dictFilterKeys P [] = [] := rfl

theorem dictFilterKeys_dictInsert (P : List Char → Bool) (k : List Char)
    (v : List (List Char)) (d : CDict) :
    dictFilterKeys P (dictInsert k v d) =
      if P k then dictInsert k v (dictFilterKeys P d) else dictFilterKeys P d := by
  induction d with
  | nil =>
    cases h : P k <;> simp [dictFilterKeys, dictInsert, h]
  | cons kv t ih =>
    by_cases h1 : kv.1 = k
    · cases hP : P k
      · simp [dictFilterKeys, dictInsert, h1, hP, List.filter_cons]
      · simp [dictFilterKeys, dictInsert, h1, hP, List.filter_cons]
    · cases hP : P k
      · cases hkv : P kv.1 <;>
          simp_all [dictFilterKeys, dictInsert, List.filter_cons, h1]
      · cases hkv : P kv.1 <;>
          simp_all [dictFilterKeys, dictInsert, List.filter_cons, h1]

theorem dictFilterKeys_sdAppend (P : List Char → Bool) (k : List Char)
    (c : List Char) (d : CDict) :
    dictFilterKeys P (sdAppend k c d) =
      if P k then sdAppend k c (dictFilterKeys P d) else dictFilterKeys P d := by
  induction d with
  | nil =>
    cases h : P k <;> simp [dictFilterKeys, sdAppend, h]
  | cons kv t ih =>
    by_cases h1 : kv.1 = k
    · cases hP : P k
      · simp [dictFilterKeys, sdAppend, h1, hP, List.filter_cons]
      · simp [dictFilterKeys, sdAppend, h1, hP, List.filter_cons]
    · cases hP : P k
      · cases hkv : P kv.1 <;>
          simp_all [dictFilterKeys, sdAppend, List.filter_cons, h1]
      · cases hkv : P kv.1 <;>
          simp_all [dictFilterKeys, sdAppend, List.filter_cons, h1]

theorem dictFilterKeys_dictUpdate (P : List Char → Bool) (d e : CDict) :
    dictFilterKeys P (dictUpdate d e) =
      dictUpdate (dictFilterKeys P d) (dictFilterKeys P e) := by
  induction e generalizing d with
  | nil => rfl
  | cons kv t ih =>
    show dictFilterKeys P (dictUpdate (dictInsert kv.1 kv.2 d) t) = _
    rw [ih]
    cases hP : P kv.1
    · have : dictFilterKeys P ((kv.1, kv.2) :: t) = dictFilterKeys P t := by
        simp [dictFilterKeys, List.filter_cons, hP]
      rw [dictFilterKeys_dictInsert, hP]
      simp only [Bool.false_eq_true, if_false]
      show dictUpdate (dictFilterKeys P d) (dictFilterKeys P t) =
        dictUpdate (dictFilterKeys P d) (dictFilterKeys P (kv :: t))
      rw [show dictFilterKeys P (kv :: t) = dictFilterKeys P t by
        simp [dictFilterKeys, List.filter_cons, hP]]
    · rw [dictFilterKeys_dictInsert, hP]
      simp only [if_true]
      have h2 : dictFilterKeys P (kv :: t) = kv :: dictFilterKeys P t := by
        simp [dictFilterKeys, List.filter_cons, hP]
      rw [h2]
      rfl

/-! ## Lemmas for the amended C4 -/

theorem isEmpty_false_of_ne_nil {α : Type} {l : List α} (h : l ≠ []) :
    l.isEmpty = false := by
  cases l with
  | nil => exact absurd rfl h
  | cons a t => rfl

theorem goodJsonCaps_of_formatted {caps : List (List Char)}
    (hne : caps ≠ []) {capj : Json} (he : caps = jsonFormatted capj) :
    GoodJsonCaps caps := by
  refine ⟨hne, ?_⟩
  intro c hc
  rw [he] at hc
  rcases List.mem_filterMap.mp hc with ⟨a, _, ha⟩
  by_cases ht : pyTruthy a = true
  · rw [if_pos ht] at ha
    exact ⟨strip (pyStr a), isTrimmed_strip _, (Option.some.injEq _ _ ▸ ha).symm⟩
  · rw [if_neg ht] at ha
    cases ha

theorem length_filterMap_if {α β : Type} (p : α → Bool) (g : α → β) (l : List α) :
    (l.filterMap (fun c => if p c then some (g c) else none)).length =
      (l.filter p).length := by
  induction l with
  | nil => rfl
  | cons a t ih =>
    cases h : p a <;> simp [List.filterMap_cons, List.filter_cons, h, ih]

theorem jsonGo_append_of_no_abort {fs : FS} {ip : List Char} {v : Bool} :
    ∀ {l1 : List Json} (rest : List Json) {d : CDict},
      (∀ j ∈ l1, jsonAborts j = false) →
      jsonGo fs ip v (l1 ++ rest) d = jsonGo fs ip v rest (jsonGo fs ip v l1 d) := by
  intro l1
  induction l1 with
  | nil => intro rest d _; rfl
  | cons item t ih =>
    intro rest d h
    have hab : jsonAborts item = false := h item (List.mem_cons_self _ _)
    have ht : ∀ j ∈ t, jsonAborts j = false :=
      fun j hj => h j (List.mem_cons_of_mem _ hj)
    cases item with
    | obj fields =>
      rw [List.cons_append]
      simp only [jsonGo]
      cases h1 : objGet ("filename".toList) fields with
      | none => exact ih rest ht
      | some fn =>
        cases h2 : objGet ("caption".toList) fields with
        | none => exact ih rest ht
        | some capj =>
          cases fn with
          | str fnStr => exact ih rest ht
          | null =>
            simp only [jsonAborts, h1, h2] at hab
            exact Bool.noConfusion hab
          | bool b =>
            simp only [jsonAborts, h1, h2] at hab
            exact Bool.noConfusion hab
          | num n =>
            simp only [jsonAborts, h1, h2] at hab
            exact Bool.noConfusion hab
          | arr xs =>
            simp only [jsonAborts, h1, h2] at hab
            exact Bool.noConfusion hab
          | obj fs2 =>
            simp only [jsonAborts, h1, h2] at hab
            exact Bool.noConfusion hab
    | null => exact ih rest ht
    | bool b => exact ih rest ht
    | num n => exact ih rest ht
    | str s => exact ih rest ht
    | arr xs => exact ih rest ht

theorem jsonGo_preserve_get {fs : FS} {ip : List Char} {v : Bool} {K : List Char}
    {caps : List (List Char)} :
    ∀ {l2 : List Json} {d : CDict},
      (∀ j ∈ l2, jsonInsKey fs ip v j ≠ some K) →
      dictGet K d = some caps →
      dictGet K (jsonGo fs ip v l2 d) = some caps := by
  intro l2
  induction l2 with
  | nil => intro d _ hd; exact hd
  | cons item t ih =>
    intro d h hd
    have hk : jsonInsKey fs ip v item ≠ some K := h item (List.mem_cons_self _ _)
    have ht : ∀ j ∈ t, jsonInsKey fs ip v j ≠ some K :=
      fun j hj => h j (List.mem_cons_of_mem _ hj)
    cases item with
    | obj fields =>
      simp only [jsonGo]
      cases h1 : objGet ("filename".toList) fields with
      | none => exact ih ht hd
      | some fn =>
        cases h2 : objGet ("caption".toList) fields with
        | none => exact ih ht hd
        | some capj =>
          cases fn with
          | str fnStr =>
            by_cases hv : (!v || fs.pathExists (joinPath ip (strip fnStr))) = true
            · by_cases hf : jsonFormatted capj = []
              · simp only [hv, if_true, hf, if_pos]
                exact ih ht hd
              · have hkey : jsonInsKey fs ip v (Json.obj fields) =
                    some (joinPath ip (strip fnStr)) := by
                  simp only [jsonInsKey, h1, h2]
                  rw [if_pos]
                  rw [hv, isEmpty_false_of_ne_nil hf]
                  rfl
                have hne : joinPath ip (strip fnStr) ≠ K := by
                  intro he
                  exact hk (by rw [hkey, he])
                simp only [hv, if_true, if_neg hf]
                refine ih ht ?_
                rw [dictGet_insert, if_neg hne]
                exact hd
            · simp only [if_neg hv]
              exact ih ht hd
          | null => exact hd
          | bool b => exact hd
          | num n => exact hd
          | arr xs => exact hd
          | obj fs2 => exact hd
    | null => exact ih ht hd
    | bool b => exact ih ht hd
    | num n => exact ih ht hd
    | str s => exact ih ht hd
    | arr xs => exact ih ht hd

/-! ## Claim C4 (amended) -/

/-- Claim C4 as amended: with `validate_images=False`, an array element that
is an object with both keys, a string filename, and at least one surviving
caption yields exactly one mapping entry — provided no earlier element makes
`item['filename'].strip()` raise (which would truncate the parse) and no
other element inserts under the same joined key.  The entry's caption list is
the element's formatted captions: its length is the element's caption count
after string coercion and dropping falsy captions, and each caption is a
trimmed string plus exactly one trailing space. -/
theorem c4_json_element_entry (fs : FS) (fp ip : List Char)
    (items l1 l2 : List Json) (fields : List (List Char × Json))
    (fn : List Char) (capj : Json)
    (hroot : fs.readJson fp = some (.arr items))
    (hsplit : items = l1 ++ Json.obj fields :: l2)
    (hfn : objGet ("filename".toList) fields = some (.str fn))
    (hcap : objGet ("caption".toList) fields = some capj)
    (hfmt : jsonFormatted capj ≠ [])
    (hnoab : ∀ j ∈ l1, jsonAborts j = false)
    (hnokey : ∀ j ∈ l2, jsonInsKey fs ip false j ≠ some (joinPath ip (strip fn))) :
    dictGet (joinPath ip (strip fn)) (jsonExtract fs fp ip false) =
        some (jsonFormatted capj)
      ∧ (jsonFormatted capj).length = ((jsonCoerce capj).filter pyTruthy).length
      ∧ ∀ c ∈ jsonFormatted capj, ∃ s, isTrimmed s = true ∧ c = s ++ [' '] := by
  refine ⟨?_, ?_, ?_⟩
  · have hx : jsonExtract fs fp ip false = jsonGo fs ip false items [] := by
      unfold jsonExtract
      rw [hroot]
    rw [hx, hsplit, jsonGo_append_of_no_abort _ hnoab]
    have hstep : jsonGo fs ip false (Json.obj fields :: l2) (jsonGo fs ip false l1 []) =
        jsonGo fs ip false l2
          (dictInsert (joinPath ip (strip fn)) (jsonFormatted capj)
            (jsonGo fs ip false l1 [])) := by
      simp only [jsonGo, hfn, hcap, Bool.not_false, Bool.true_or, if_true, if_neg hfmt]
    rw [hstep]
    refine jsonGo_preserve_get hnokey ?_
    rw [dictGet_insert, if_pos rfl]
  · exact length_filterMap_if pyTruthy (fun c => strip (pyStr c) ++ [' ']) (jsonCoerce capj)
  · exact (goodJsonCaps_of_formatted hfmt rfl).2

/-- Witness for the amended C4 on the JSON file of `fsTxt`, whose single
element has captions `["one", "", "two "]`: the falsy middle caption is
dropped and the other two are trimmed and suffixed with one space. -/
theorem c4_witness :
    dictGet ("a.jpg".toList) (jsonExtract fsTxt ("/c.json".toList) [] false) =
        some (jsonFormatted (.arr [.str ("one".toList), .str [],
                                   .str ("two ".toList)])) :=
  (c4_json_element_entry fsTxt ("/c.json".toList) []
    [.obj [(("filename".toList), .str ("a.jpg".toList)),
           (("caption".toList), .arr [.str ("one".toList), .str [],
                                      .str ("two ".toList)])]]
    [] []
    [(("filename".toList), .str ("a.jpg".toList)),
     (("caption".toList), .arr [.str ("one".toList), .str [],
                                .str ("two ".toList)])]
    ("a.jpg".toList)
    (.arr [.str ("one".toList), .str [], .str ("two ".toList)])
    rfl rfl rfl rfl (by decide) (by simp) (by simp)).1

/-! ## Claim C5 -/

theorem walk_foldl_eq (pf : List Char → List Char → CDict) :
    ∀ (walk : List (List Char × List (List Char))) (A : CDict),
      walk.foldl (fun acc rf => rf.2.foldl (fun a f => mergeStep a (pf rf.1 f)) acc) A =
        (walk.flatMap (fun rf => rf.2.map (pf rf.1))).foldl mergeStep A := by
  intro walk
  induction walk with
  | nil => intro A; rfl
  | cons rf rest ih =>
    intro A
    rw [List.flatMap_cons, List.foldl_append, List.foldl_map, List.foldl_cons, ih]

theorem collect_eq_foldl_perFileDicts (fs : FS) (baseDir : List Char) (v : Bool) :
    collectAllCaptionData fs baseDir v =
      (perFileDicts fs baseDir v).foldl mergeStep [] := by
  unfold collectAllCaptionData perFileDicts
  exact walk_foldl_eq (processFile fs v) (fs.walkOf baseDir) []

theorem keysND_processFile (fs : FS) (v : Bool) (root file : List Char) :
    KeysND (processFile fs v root file) := by
  unfold processFile
  dsimp only
  split
  · unfold bnatureCaptions
    refine foldl_preserve _ ?_ _ _ keysND_nil
    intro d b hd
    unfold bnatureStep
    dsimp only
    split
    · exact hd
    · split
      · exact keysND_dictInsert hd
      · exact hd
  · split
    · unfold bnlitCaptions
      dsimp only
      split
      · exact keysND_nil
      · refine foldl_preserve _ ?_ _ _ keysND_nil
        intro d b hd
        unfold bnlitStep
        dsimp only
        split
        · exact hd
        · split
          · exact hd
          · split
            · exact keysND_sdAppend hd
            · exact hd
    · split
      · split <;> exact keysND_nil
      · exact keysND_nil

theorem mem_perFileDicts {fs : FS} {baseDir : List Char} {v : Bool} {D : CDict}
    (h : D ∈ perFileDicts fs baseDir v) :
    ∃ root file, D = processFile fs v root file := by
  unfold perFileDicts at h
  rcases List.mem_flatMap.mp h with ⟨rf, _, hm⟩
  rcases List.mem_map.mp hm with ⟨file, _, he⟩
  exact ⟨rf.1, file, he.symm⟩

theorem foldl_mergeStep_get_none {k : List Char} :
    ∀ {L : List CDict} {A : CDict}, (∀ D ∈ L, dictGet k D = none) →
      dictGet k (L.foldl mergeStep A) = dictGet k A := by
  intro L
  induction L with
  | nil => intro A _; rfl
  | cons D t ih =>
    intro A h
    have hD : dictGet k D = none := h D (List.mem_cons_self _ _)
    have ht : ∀ D' ∈ t, dictGet k D' = none :=
      fun D' hm => h D' (List.mem_cons_of_mem _ hm)
    rw [List.foldl_cons, ih ht]
    unfold mergeStep
    split
    · exact dictGet_dictUpdate_none hD
    · rfl

/-- Claim C5: whenever two files processed during one walk both produce
entries for the same image path, the returned mapping's value for that path
is exactly the later-processed file's caption list — formally, if one
per-file dict `D` of the walk maps `k` to `caps` and every per-file dict
processed after `D` lacks `k`, the collected mapping maps `k` to `caps`, the
earlier files' captions being fully replaced by `dict.update`. -/
theorem c5_last_file_wins (fs : FS) (baseDir : List Char) (v : Bool)
    (L1 L2 : List CDict) (D : CDict) (k : List Char) (caps : List (List Char))
    (hperm : perFileDicts fs baseDir v = L1 ++ D :: L2)
    (hD : dictGet k D = some caps)
    (hL2 : ∀ D' ∈ L2, dictGet k D' = none) :
    dictGet k (collectAllCaptionData fs baseDir v) = some caps := by
  have hnd : KeysND D := by
    have hm : D ∈ perFileDicts fs baseDir v := by
      rw [hperm]
      exact List.mem_append_right _ (List.mem_cons_self _ _)
    rcases mem_perFileDicts hm with ⟨root, file, he⟩
    rw [he]
    exact keysND_processFile fs v root file
  have hDne : D ≠ [] := by
    intro h
    rw [h] at hD
    cases hD
  rw [collect_eq_foldl_perFileDicts, hperm, List.foldl_append, List.foldl_cons,
    foldl_mergeStep_get_none hL2]
  unfold mergeStep
  rw [if_pos hDne]
  exact dictGet_dictUpdate_some hnd hD

/-- Witness for C5: two BNLIT annotation files in one directory both caption
`1.png`; the mapping keeps only the later file's caption. -/
theorem c5_witness :
    dictGet ("/d/1.png".toList) (collectAllCaptionData fsTwoFiles ("/d".toList) false) =
      some [("second".toList)] :=
  c5_last_file_wins fsTwoFiles ("/d".toList) false
    [[(("/d/1.png".toList), [("first".toList)])]] []
    [(("/d/1.png".toList), [("second".toList)])]
    ("/d/1.png".toList) [("second".toList)]
    (by decide) (by decide) (by simp)

/-! ## Claim C7 -/

theorem bnatureStep_get_insert {fs : FS} {v : Bool} {pd : List Char}
    {capMap d : CDict} {name : List Char} {caps : List (List Char)}
    (hcaps : dictGet name capMap = some caps) (hne : caps ≠ [])
    (hvp : (!v || fs.pathExists (joinPath pd name)) = true) :
    dictGet (abspathCwd fs.cwd (joinPath pd name))
      (bnatureStep fs v pd capMap d name) = some caps := by
  have h1 : (dictGet name capMap).getD [] = caps := by rw [hcaps]; rfl
  unfold bnatureStep
  dsimp only
  rw [h1, if_neg hne, hvp]
  simp only [if_true]
  rw [dictGet_insert, if_pos rfl]

theorem bnatureStep_get_preserve {fs : FS} {v : Bool} {pd : List Char}
    {capMap d : CDict} {n K : List Char}
    (hk : bnatureKeyOf fs v pd capMap n ≠ some K) :
    dictGet K (bnatureStep fs v pd capMap d n) = dictGet K d := by
  unfold bnatureStep bnatureKeyOf at *
  dsimp only at *
  by_cases h1 : (dictGet n capMap).getD [] = []
  · rw [if_pos h1]
  · rw [if_neg h1]
    rw [if_neg h1] at hk
    by_cases h2 : (!v || fs.pathExists (joinPath pd n)) = true
    · rw [h2] at hk ⊢
      simp only [if_true] at hk ⊢
      have : abspathCwd fs.cwd (joinPath pd n) ≠ K := fun he => hk (by rw [he])
      rw [dictGet_insert, if_neg this]
    · simp only [if_neg h2]

theorem bnature_foldl_preserve {fs : FS} {v : Bool} {pd : List Char}
    {capMap : CDict} {K : List Char} :
    ∀ {l : List (List Char)} {d : CDict},
      (∀ n ∈ l, bnatureKeyOf fs v pd capMap n ≠ some K) →
      dictGet K (l.foldl (bnatureStep fs v pd capMap) d) = dictGet K d := by
  intro l
  induction l with
  | nil => intro d _; rfl
  | cons n t ih =>
    intro d h
    rw [List.foldl_cons, ih (fun n' hm => h n' (List.mem_cons_of_mem _ hm)),
      bnatureStep_get_preserve (h n (List.mem_cons_self _ _))]

/-- Claim C7: for a file named `test.txt` (exact, case-insensitive), the
collector reads `caption.txt` from the same directory into a name → captions
map; every filename listed in `test.txt` that has captions in that map (and
whose key is written by no later listed name) produces an entry mapping the
absolute `<parent>/Pictures/<filename>` path to those captions, subject to
`validate_images`; filenames with no captions are skipped; and the dispatch
itself sends `test.txt` to this branch. -/
theorem c7_bnature_join (fs : FS) (v : Bool) (root file filePath : List Char) :
    (∀ l1 l2 name caps,
      bnatureTestNames fs filePath = l1 ++ name :: l2 →
      dictGet name (bnatureCapMapOf fs filePath) = some caps →
      caps ≠ [] →
      (!v || fs.pathExists (joinPath (bnaturePicturesDir filePath) name)) = true →
      (∀ n ∈ l2,
        bnatureKeyOf fs v (bnaturePicturesDir filePath) (bnatureCapMapOf fs filePath) n ≠
          some (abspathCwd fs.cwd (joinPath (bnaturePicturesDir filePath) name))) →
      dictGet (abspathCwd fs.cwd (joinPath (bnaturePicturesDir filePath) name))
          (bnatureCaptions fs v filePath) = some caps)
    ∧ (∀ d name, (dictGet name (bnatureCapMapOf fs filePath)).getD [] = [] →
      bnatureStep fs v (bnaturePicturesDir filePath) (bnatureCapMapOf fs filePath)
        d name = d)
    ∧ (lowerStr file = ("test.txt".toList) →
      processFile fs v root file = bnatureCaptions fs v (joinPath root file)) := by
  refine ⟨?_, ?_, ?_⟩
  · intro l1 l2 name caps hnames hcaps hne hvp hlast
    unfold bnatureCaptions
    rw [hnames, List.foldl_append, List.foldl_cons, bnature_foldl_preserve hlast,
      bnatureStep_get_insert hcaps hne hvp]
  · intro d name hskip
    unfold bnatureStep
    dsimp only
    rw [if_pos hskip]
  · intro h
    unfold processFile
    dsimp only
    rw [show fileKindBnature (lowerStr file) = true by simp [fileKindBnature, h]]
    simp

/-- Witness for C7 on the spec's BNATURE scenario. -/
theorem c7_witness :
    dictGet ("/data/test/BNATURE/Pictures/img1.jpg".toList)
        (bnatureCaptions fsBnature true
          ("/data/test/BNATURE/caption/test.txt".toList)) =
      some [("a caption".toList)] := by
  have h := (c7_bnature_join fsBnature true [] []
    ("/data/test/BNATURE/caption/test.txt".toList)).1
    [] [] ("img1.jpg".toList) [("a caption".toList)]
    (by decide) (by decide) (by decide) (by decide) (by simp)
  exact h

/-! ## Claim C10 (amended) -/

theorem isAbs_append {a : List Char} (b : List Char) (h : a ≠ []) :
    isAbs (a ++ b) = isAbs a := by
  cases a with
  | nil => exact absurd rfl h
  | cons c t => rfl

theorem isAbs_joinPath (a b : List Char) :
    isAbs (joinPath a b) = (isAbs a || isAbs b) := by
  unfold joinPath
  by_cases hb : isAbs b = true
  · rw [if_pos hb, hb, Bool.or_true]
  · have hb' : isAbs b = false := Bool.eq_false_iff.mpr hb
    rw [if_neg hb]
    split
    · next hcond =>
      rcases hcond with rfl | hl
      · simp [isAbs, hb']
      · have ha : a ≠ [] := by
          intro h
          rw [h] at hl
          cases hl
        rw [isAbs_append b ha, hb', Bool.or_false]
    · next hcond =>
      push_neg at hcond
      rw [isAbs_append ('/' :: b) hcond.1, hb', Bool.or_false]

theorem isAbs_normpath {p : List Char} (h : isAbs p = true) :
    isAbs (normpath p) = true := by
  obtain ⟨c, rest, rfl⟩ : ∃ c rest, p = c :: rest := by
    cases p with
    | nil => cases h
    | cons c rest => exact ⟨c, rest, rfl⟩
  have hc : c = '/' := by simpa [isAbs] using h
  subst hc
  unfold normpath
  rw [if_neg (by simp)]
  dsimp only
  have h1 : normSlashes ('/' :: rest) = 2 ∨ normSlashes ('/' :: rest) = 1 := by
    unfold normSlashes
    by_cases h2 : isPre ['/', '/'] ('/' :: rest) = true ∧
        ¬ isPre ['/', '/', '/'] ('/' :: rest) = true
    · left
      rw [if_pos h2]
    · right
      rw [if_neg h2, if_pos]
      show isPre ['/'] ('/' :: rest) = true
      simp [isPre]
  rcases h1 with h1 | h1 <;>
    simp [h1, List.replicate_succ, isAbs]

theorem isAbs_abspathCwd {cwd : List Char} (p : List Char)
    (h : isAbs cwd = true) : isAbs (abspathCwd cwd p) = true := by
  unfold abspathCwd
  by_cases hp : isAbs p = true
  · rw [if_pos hp]
    exact isAbs_normpath hp
  · rw [if_neg hp]
    apply isAbs_normpath
    rw [isAbs_joinPath, h, Bool.true_or]

theorem keysP_abs_processFile (fs : FS) (v : Bool) (root file : List Char)
    (hcwd : isAbs fs.cwd = true) :
    KeysP (fun k => isAbs k = true) (processFile fs v root file) := by
  unfold processFile
  dsimp only
  split
  · unfold bnatureCaptions
    refine foldl_preserve _ ?_ _ _ keysP_nil
    intro d b hd
    unfold bnatureStep
    dsimp only
    split
    · exact hd
    · split
      · exact keysP_dictInsert (isAbs_abspathCwd _ hcwd) hd
      · exact hd
  · split
    · unfold bnlitCaptions
      dsimp only
      split
      · exact keysP_nil
      · refine foldl_preserve _ ?_ _ _ keysP_nil
        intro d b hd
        unfold bnlitStep
        dsimp only
        split
        · exact hd
        · split
          · exact hd
          · split
            · exact keysP_sdAppend (isAbs_abspathCwd _ hcwd) hd
            · exact hd
    · split
      · split <;> exact keysP_nil
      · exact keysP_nil

theorem keysP_join_txtStep {fs : FS} {ip : List Char} {v : Bool} {d : CDict}
    {raw : List Char} (hd : KeysP (fun k => ∃ name, k = joinPath ip name) d) :
    KeysP (fun k => ∃ name, k = joinPath ip name) (txtStep fs ip v d raw) := by
  unfold txtStep
  dsimp only
  split
  · exact hd
  · split
    · exact hd
    · split
      · exact hd
      · split
        · exact keysP_sdAppend ⟨_, rfl⟩ hd
        · exact hd

theorem keysP_join_jsonGo {fs : FS} {ip : List Char} {v : Bool} :
    ∀ {items : List Json} {d : CDict},
      KeysP (fun k => ∃ name, k = joinPath ip name) d →
      KeysP (fun k => ∃ name, k = joinPath ip name) (jsonGo fs ip v items d) := by
  intro items
  induction items with
  | nil => intro d hd; exact hd
  | cons item rest ih =>
    intro d hd
    cases item with
    | obj fields =>
      simp only [jsonGo]
      split
      · exact ih hd
      · split
        · exact ih hd
        · split
          · refine ih ?_
            split
            · split
              · exact hd
              · exact keysP_dictInsert ⟨_, rfl⟩ hd
            · exact hd
          · exact hd
    | null => exact ih hd
    | bool b => exact ih hd
    | num n => exact ih hd
    | str s => exact ih hd
    | arr xs => exact ih hd

/-- Claim C10 as amended: every key of the collected mapping is absolute
(given an absolute working directory, `os.path.abspath` always yields an
absolute path); by contrast the two parsers return keys built only by
`join(images_path, name)`, and such a key is absolute exactly when
`images_path` is absolute or the name from the file is itself absolute. -/
theorem c10_keys_absolute (fs : FS) (baseDir filePath imagesPath : List Char)
    (v : Bool) :
    (isAbs fs.cwd = true →
      KeysP (fun k => isAbs k = true) (collectAllCaptionData fs baseDir v))
    ∧ (∀ a b, isAbs (joinPath a b) = (isAbs a || isAbs b))
    ∧ KeysP (fun k => ∃ name, k = joinPath imagesPath name)
        (txtExtract fs filePath imagesPath v)
    ∧ KeysP (fun k => ∃ name, k = joinPath imagesPath name)
        (jsonExtract fs filePath imagesPath v) := by
  refine ⟨?_, isAbs_joinPath, ?_, ?_⟩
  · intro hcwd
    unfold collectAllCaptionData
    refine foldl_preserve _ ?_ _ _ keysP_nil
    intro d rf hd
    refine foldl_preserve _ ?_ _ _ hd
    intro d2 file hd2
    unfold mergeStep
    split
    · exact keysP_dictUpdate hd2 (keysP_abs_processFile fs v rf.1 file hcwd)
    · exact hd2
  · unfold txtExtract
    split
    · exact keysP_nil
    · exact foldl_preserve _ (fun d b hd => keysP_join_txtStep hd) _ _ keysP_nil
  · unfold jsonExtract
    split
    · exact keysP_join_jsonGo keysP_nil
    · exact keysP_nil

/-- Witness for the amended C10: the key collected in the BNATURE scenario is
absolute. -/
theorem c10_witness :
    isAbs ("/data/test/BNATURE/Pictures/img1.jpg".toList) = true :=
  (c10_keys_absolute fsBnature ("/data/test".toList) [] [] true).1 (by decide)
    (("/data/test/BNATURE/Pictures/img1.jpg".toList), [("a caption".toList)])
    (by decide)

/-! ## Claim C9 -/

theorem foldl_hom {β : Type} (φ : CDict → CDict) (stepT stepF : CDict → β → CDict)
    (hstep : ∀ d b, stepT (φ d) b = φ (stepF d b)) :
    ∀ (l : List β) (d : CDict), l.foldl stepT (φ d) = φ (l.foldl stepF d) := by
  intro l
  induction l with
  | nil => intro d; rfl
  | cons b t ih =>
    intro d
    rw [List.foldl_cons, List.foldl_cons, hstep, ih]

theorem txtStep_filter (fs : FS) (ip : List Char) (d : CDict) (raw : List Char) :
    txtStep fs ip true (dictFilterKeys fs.pathExists d) raw =
      dictFilterKeys fs.pathExists (txtStep fs ip false d raw) := by
  unfold txtStep
  dsimp only
  by_cases hl : strip raw = []
  · rw [if_pos hl, if_pos hl]
  · rw [if_neg hl, if_neg hl]
    cases hsp : txtLineSplit (strip raw) with
    | none => rfl
    | some ab =>
      dsimp only
      by_cases he : strip ab.1 = [] ∨ strip ab.2 = []
      · rw [if_pos he, if_pos he]
      · rw [if_neg he, if_neg he]
        simp only [Bool.not_true, Bool.not_false, Bool.false_or, Bool.true_or,
          eq_self_iff_true, if_true]
        rw [dictFilterKeys_sdAppend]

theorem txtExtract_filter (fs : FS) (fp ip : List Char) :
    txtExtract fs fp ip true =
      dictFilterKeys fs.pathExists (txtExtract fs fp ip false) := by
  unfold txtExtract
  cases h : fs.readLines fp with
  | none => rfl
  | some lns =>
    have h2 := foldl_hom (dictFilterKeys fs.pathExists)
      (txtStep fs ip true) (txtStep fs ip false)
      (fun d b => txtStep_filter fs ip d b) lns []
    exact h2

theorem validate_insert_filter (fs : FS) (key : List Char)
    (fmt : List (List Char)) (d : CDict) :
    (if (!true || fs.pathExists key) = true then
        if fmt = [] then dictFilterKeys fs.pathExists d
        else dictInsert key fmt (dictFilterKeys fs.pathExists d)
      else dictFilterKeys fs.pathExists d) =
      dictFilterKeys fs.pathExists
        (if (!false || fs.pathExists key) = true then
          if fmt = [] then d else dictInsert key fmt d
        else d) := by
  simp only [Bool.not_true, Bool.not_false, Bool.false_or, Bool.true_or,
    eq_self_iff_true, if_true]
  by_cases hf : fmt = []
  · rw [if_pos hf, if_pos hf, ite_self]
  · rw [if_neg hf, if_neg hf, dictFilterKeys_dictInsert]

theorem jsonGo_filter {fs : FS} {ip : List Char} :
    ∀ {items : List Json} {d : CDict},
      jsonGo fs ip true items (dictFilterKeys fs.pathExists d) =
        dictFilterKeys fs.pathExists (jsonGo fs ip false items d) := by
  intro items
  induction items with
  | nil => intro d; rfl
  | cons item rest ih =>
    intro d
    cases item with
    | obj fields =>
      simp only [jsonGo]
      cases h1 : objGet ("filename".toList) fields with
      | none => exact ih
      | some fn =>
        cases h2 : objGet ("caption".toList) fields with
        | none => exact ih
        | some capj =>
          cases fn with
          | str fnStr =>
            dsimp only
            rw [validate_insert_filter fs (joinPath ip (strip fnStr))
              (jsonFormatted capj) d]
            exact ih
          | null => rfl
          | bool b => rfl
          | num n => rfl
          | arr xs => rfl
          | obj fs2 => rfl
    | null => exact ih
    | bool b => exact ih
    | num n => exact ih
    | str s => exact ih
    | arr xs => exact ih

theorem jsonExtract_filter (fs : FS) (fp ip : List Char) :
    jsonExtract fs fp ip true =
      dictFilterKeys fs.pathExists (jsonExtract fs fp ip false) := by
  unfold jsonExtract
  cases h : fs.readJson fp with
  | none => rfl
  | some j =>
    cases j with
    | arr items =>
      dsimp only
      have h2 := @jsonGo_filter fs ip items []
      exact h2
    | null => rfl
    | bool b => rfl
    | num n => rfl
    | str s => rfl
    | obj flds => rfl

theorem bnatureStep_filter {fs : FS} (hc : AbsCoherent fs) (pd : List Char)
    (capMap : CDict) (d : CDict) (name : List Char) :
    bnatureStep fs true pd capMap (dictFilterKeys fs.pathExists d) name =
      dictFilterKeys fs.pathExists (bnatureStep fs false pd capMap d name) := by
  unfold bnatureStep
  dsimp only
  by_cases h1 : (dictGet name capMap).getD [] = []
  · rw [if_pos h1, if_pos h1]
  · rw [if_neg h1, if_neg h1]
    simp only [Bool.not_true, Bool.not_false, Bool.false_or, Bool.true_or,
      eq_self_iff_true, if_true]
    rw [dictFilterKeys_dictInsert, hc (joinPath pd name)]

theorem bnlitStep_filter {fs : FS} (hc : AbsCoherent fs) (idir : List Char)
    (d : CDict) (raw : List Char) :
    bnlitStep fs true idir (dictFilterKeys fs.pathExists d) raw =
      dictFilterKeys fs.pathExists (bnlitStep fs false idir d raw) := by
  unfold bnlitStep
  dsimp only
  by_cases hl : strip raw = []
  · rw [if_pos hl, if_pos hl]
  · rw [if_neg hl, if_neg hl]
    cases hsp : bnlitLineSplit (strip raw) with
    | none => rfl
    | some ab =>
      dsimp only
      simp only [Bool.not_true, Bool.not_false, Bool.false_or, Bool.true_or,
        eq_self_iff_true, if_true]
      rw [dictFilterKeys_sdAppend, hc (joinPath idir (strip ab.1))]

theorem processFile_filter {fs : FS} (hc : AbsCoherent fs) (root file : List Char) :
    processFile fs true root file =
      dictFilterKeys fs.pathExists (processFile fs false root file) := by
  unfold processFile
  dsimp only
  split
  · unfold bnatureCaptions
    have h2 := foldl_hom (dictFilterKeys fs.pathExists)
      (bnatureStep fs true (bnaturePicturesDir (joinPath root file))
        (bnatureCapMapOf fs (joinPath root file)))
      (bnatureStep fs false (bnaturePicturesDir (joinPath root file))
        (bnatureCapMapOf fs (joinPath root file)))
      (fun d b => bnatureStep_filter hc _ _ d b)
      (bnatureTestNames fs (joinPath root file)) []
    exact h2
  · split
    · unfold bnlitCaptions
      dsimp only
      cases h : fs.readLines (joinPath root file) with
      | none => rfl
      | some lns =>
        have h2 := foldl_hom (dictFilterKeys fs.pathExists)
          (bnlitStep fs true (bnlitImagesDir fs (dirname (joinPath root file))))
          (bnlitStep fs false (bnlitImagesDir fs (dirname (joinPath root file))))
          (fun d b => bnlitStep_filter hc _ d b) lns []
        exact h2
    · split
      · split <;> rfl
      · rfl

theorem mergeStep_filter {P : List Char → Bool} {aF cF : CDict} :
    mergeStep (dictFilterKeys P aF) (dictFilterKeys P cF) =
      dictFilterKeys P (mergeStep aF cF) := by
  unfold mergeStep
  by_cases hf : cF = []
  · subst hf
    simp [dictFilterKeys]
  · rw [if_pos hf, dictFilterKeys_dictUpdate]
    by_cases ht : dictFilterKeys P cF = []
    · rw [if_neg (fun h => h ht), ht]
      rfl
    · rw [if_pos ht]

theorem collect_filter {fs : FS} (hc : AbsCoherent fs) (baseDir : List Char) :
    collectAllCaptionData fs baseDir true =
      dictFilterKeys fs.pathExists (collectAllCaptionData fs baseDir false) := by
  unfold collectAllCaptionData
  have h2 := foldl_hom (dictFilterKeys fs.pathExists)
    (fun acc rootFiles => rootFiles.2.foldl
      (fun acc2 file => mergeStep acc2 (processFile fs true rootFiles.1 file)) acc)
    (fun acc rootFiles => rootFiles.2.foldl
      (fun acc2 file => mergeStep acc2 (processFile fs false rootFiles.1 file)) acc)
    (fun d rf => by
      have h3 := foldl_hom (dictFilterKeys fs.pathExists)
        (fun acc2 file => mergeStep acc2 (processFile fs true rf.1 file))
        (fun acc2 file => mergeStep acc2 (processFile fs false rf.1 file))
        (fun d2 file => by
          show mergeStep (dictFilterKeys fs.pathExists d2) (processFile fs true rf.1 file) = _
          rw [processFile_filter hc]
          exact mergeStep_filter) rf.2 d
      exact h3)
    (fs.walkOf baseDir) []
  exact h2

theorem txtStep_ignores_exists (fs : FS) (q : List Char → Bool) (ip : List Char)
    (d : CDict) (raw : List Char) :
    txtStep { fs with pathExists := q } ip false d raw = txtStep fs ip false d raw := by
  unfold txtStep
  dsimp only
  simp only [Bool.not_false, Bool.true_or, eq_self_iff_true, if_true]

theorem jsonGo_ignores_exists (fs : FS) (q : List Char → Bool) (ip : List Char) :
    ∀ (items : List Json) (d : CDict),
      jsonGo { fs with pathExists := q } ip false items d = jsonGo fs ip false items d := by
  intro items
  induction items with
  | nil => intro d; rfl
  | cons item rest ih =>
    intro d
    cases item with
    | obj fields =>
      simp only [jsonGo]
      cases h1 : objGet ("filename".toList) fields with
      | none => exact ih d
      | some fn =>
        cases h2 : objGet ("caption".toList) fields with
        | none => exact ih d
        | some capj =>
          cases fn with
          | str fnStr =>
            dsimp only
            simp only [Bool.not_false, Bool.true_or, eq_self_iff_true, if_true]
            exact ih _
          | null => rfl
          | bool b => rfl
          | num n => rfl
          | arr xs => rfl
          | obj fs2 => rfl
    | null => exact ih d
    | bool b => exact ih d
    | num n => exact ih d
    | str s => exact ih d
    | arr xs => exact ih d

/-- Claim C9: with `validate_images=True` every entry whose resolved image
path does not exist is excluded — and nothing else changes: in each parser
and (for a filesystem on which `abspath` preserves existence) in the
collector, the validating run equals the non-validating run filtered by
existence of the key; and with `validate_images=False` the parsers never
consult existence at all, so entries are included unconditionally. -/
theorem c9_validate_filter (fs : FS) (filePath imagesPath baseDir : List Char) :
    (txtExtract fs filePath imagesPath true =
        dictFilterKeys fs.pathExists (txtExtract fs filePath imagesPath false))
    ∧ (jsonExtract fs filePath imagesPath true =
        dictFilterKeys fs.pathExists (jsonExtract fs filePath imagesPath false))
    ∧ (AbsCoherent fs →
        collectAllCaptionData fs baseDir true =
          dictFilterKeys fs.pathExists (collectAllCaptionData fs baseDir false))
    ∧ (∀ q, txtExtract { fs with pathExists := q } filePath imagesPath false =
        txtExtract fs filePath imagesPath false)
    ∧ (∀ q, jsonExtract { fs with pathExists := q } filePath imagesPath false =
        jsonExtract fs filePath imagesPath false) := by
  refine ⟨txtExtract_filter fs filePath imagesPath,
    jsonExtract_filter fs filePath imagesPath,
    fun hc => collect_filter hc baseDir, ?_, ?_⟩
  · intro q
    unfold txtExtract
    show (match fs.readLines filePath with
      | none => []
      | some lns => lns.foldl (txtStep { fs with pathExists := q } imagesPath false) []) = _
    cases h : fs.readLines filePath with
    | none => rfl
    | some lns =>
      have hfun : txtStep { fs with pathExists := q } imagesPath false =
          txtStep fs imagesPath false :=
        funext fun d => funext fun raw => txtStep_ignores_exists fs q imagesPath d raw
      rw [hfun]
  · intro q
    unfold jsonExtract
    show (match fs.readJson filePath with
      | some (.arr items) => jsonGo { fs with pathExists := q } imagesPath false items []
      | _ => []) = _
    cases h : fs.readJson filePath with
    | none => rfl
    | some j =>
      cases j with
      | arr items => exact jsonGo_ignores_exists fs q imagesPath items []
      | null => rfl
      | bool b => rfl
      | num n => rfl
      | str s => rfl
      | obj flds => rfl

/-- Witness for C9 on the all-paths-exist filesystem `fsGenericJson`, for
which `AbsCoherent` holds trivially. -/
theorem c9_witness :
    collectAllCaptionData fsGenericJson ("/d".toList) true =
      dictFilterKeys fsGenericJson.pathExists
        (collectAllCaptionData fsGenericJson ("/d".toList) false) :=
  (c9_validate_filter fsGenericJson [] [] ("/d".toList)).2.2.1 (fun _ => rfl)

/-! ## Claim C6 -/

/-- Claim C6: for every line of a file parsed by `TXTCaptionParser.extract`,
the delimiter is chosen by first-match precedence — a 3-space run, else a
space-then-hash, else a bare hash; a line containing none of the three
delimiters, or splitting into fewer than 2 non-empty trimmed parts,
contributes zero entries and causes no error. -/
theorem c6_txt_line_delimiters (fs : FS) (imagesPath : List Char) (validate : Bool)
    (d : CDict) (rawLine : List Char) :
    (containsSub ("   ".toList) (strip rawLine) = false →
      containsSub (" #".toList) (strip rawLine) = false →
      containsSub ("#".toList) (strip rawLine) = false →
      txtStep fs imagesPath validate d rawLine = d)
    ∧ (containsSub ("   ".toList) (strip rawLine) = true →
      txtLineSplit (strip rawLine) = splitFirst ("   ".toList) (strip rawLine))
    ∧ (containsSub ("   ".toList) (strip rawLine) = false →
      containsSub (" #".toList) (strip rawLine) = true →
      txtLineSplit (strip rawLine) = splitFirst (" #".toList) (strip rawLine))
    ∧ (containsSub ("   ".toList) (strip rawLine) = false →
      containsSub (" #".toList) (strip rawLine) = false →
      containsSub ("#".toList) (strip rawLine) = true →
      txtLineSplit (strip rawLine) = splitFirst ("#".toList) (strip rawLine))
    ∧ (∀ ab, txtLineSplit (strip rawLine) = some ab →
      strip ab.1 = [] ∨ strip ab.2 = [] →
      txtStep fs imagesPath validate d rawLine = d) := by
  refine ⟨?_, ?_, ?_, ?_, ?_⟩
  · intro h1 h2 h3
    unfold txtStep
    by_cases hl : strip rawLine = []
    · simp [hl]
    · have hs : txtLineSplit (strip rawLine) = none := by
        unfold txtLineSplit
        rw [h1, h2, h3]
        simp
      simp [hl, hs]
  · intro h1
    unfold txtLineSplit
    rw [h1]
    simp
  · intro h1 h2
    unfold txtLineSplit
    rw [h1, h2]
    simp
  · intro h1 h2 h3
    unfold txtLineSplit
    rw [h1, h2, h3]
    simp
  · intro ab hab hempty
    unfold txtStep
    by_cases hl : strip rawLine = []
    · simp [hl]
    · simp [hl, hab, hempty]

/-- Witness for C6 on the line `"x.png# "`: a bare hash is detected after the
3-space and space-hash delimiters fail, and its empty trimmed caption makes
the line contribute nothing. -/
theorem c6_witness :
    txtLineSplit (strip ("x.png# ".toList)) = splitFirst ("#".toList) (strip ("x.png# ".toList))
      ∧ txtStep fsTxt ("b".toList) false [] ("x.png# ".toList) = [] := by
  constructor
  · exact (c6_txt_line_delimiters fsTxt ("b".toList) false [] ("x.png# ".toList)).2.2.2.1
      (by decide) (by decide) (by decide)
  · exact (c6_txt_line_delimiters fsTxt ("b".toList) false [] ("x.png# ".toList)).2.2.2.2
      (("x.png".toList), []) (by decide) (by decide)

/-! ## Claim C8 -/

/-- Claim C8: for a BNLIT test-annotation file, the images directory is
resolved by an ordered three-tier fallback in which the first existing
candidate wins — the fixed resized-folder name joined to the file's directory
if that is a directory; else the file's own directory if it is one; else the
parent of the file's directory. -/
theorem c8_bnlit_images_dir_fallback (fs : FS) (bnlitRoot : List Char) :
    (fs.isDir (joinPath bnlitRoot resizedFolder) = true →
      bnlitImagesDir fs bnlitRoot = joinPath bnlitRoot resizedFolder)
    ∧ (fs.isDir (joinPath bnlitRoot resizedFolder) = false →
      fs.isDir bnlitRoot = true →
      bnlitImagesDir fs bnlitRoot = bnlitRoot)
    ∧ (fs.isDir (joinPath bnlitRoot resizedFolder) = false →
      fs.isDir bnlitRoot = false →
      bnlitImagesDir fs bnlitRoot = normpath (joinPath bnlitRoot ("..".toList))) := by
  unfold bnlitImagesDir
  refine ⟨fun h => by simp [h], fun h1 h2 => by simp [h1, h2],
    fun h1 h2 => by simp [h1, h2]⟩

/-- Witness for C8 on the spec's BNLIT scenario: the resized folder is
missing but the BNLIT directory exists, so the middle tier wins. -/
theorem c8_witness :
    bnlitImagesDir fsBnlit ("/data/test/BNLIT".toList) = ("/data/test/BNLIT".toList) :=
  (c8_bnlit_images_dir_fallback fsBnlit ("/data/test/BNLIT".toList)).2.1
    (by decide) (by decide)

/-! ## Claim C3 -/

/-- Counterexample to claim C3 as stated: on a filesystem where the base
directory does not exist, `collect_all_caption_data` does not fail — it
returns an empty mapping, because `os.walk` with its default `onerror=None`
silently swallows the scandir failure. -/
theorem c3_counterexample :
    fsEmpty.isDir ("/missing".toList) = false
      ∧ collectAllCaptionDataE fsEmpty ("/missing".toList) true = Except.ok [] :=
  ⟨rfl, rfl⟩

/-- Claim C3 as amended: if the base directory does not exist (so the walk
yields nothing), the call raises no error and returns an empty mapping — no
exception propagates to the caller. -/
theorem c3_missing_base_dir_returns_empty (fs : FS) (baseDir : List Char)
    (validate : Bool) (h1 : fs.isDir baseDir = false)
    (h2 : ∀ b, fs.isDir b = false → fs.walkOf b = []) :
    collectAllCaptionDataE fs baseDir validate = Except.ok [] := by
  unfold collectAllCaptionDataE collectAllCaptionData
  rw [h2 baseDir h1]
  rfl

/-- Witness for the amended C3 on the empty filesystem. -/
theorem c3_witness :
    collectAllCaptionDataE fsEmpty ("/nowhere".toList) false = Except.ok [] :=
  c3_missing_base_dir_returns_empty fsEmpty ("/nowhere".toList) false rfl
    (fun _ _ => rfl)

/-! ## Claim C1 -/

/-- Claim C1's failing input: a generic caption file `data.json` — matched by
no skip word and by no dataset-specific rule — whose content the JSON parser
turns into a non-empty mapping; yet the collector's walk produces the empty
mapping, because its third branch only distinguishes `continue` from falling
through and never invokes either parser (the `json_parser` and `txt_parser`
objects built at lines 172-173 are never used). -/
theorem c1_collector_ignores_generic_json :
    jsonExtract fsGenericJson ("/d/data.json".toList) [] false =
        [(("a.jpg".toList), [("hi ".toList)])]
      ∧ collectAllCaptionData fsGenericJson ("/d".toList) false = [] :=
  ⟨rfl, rfl⟩

/-! ## Claim C2 -/

/-- Counterexample to claim C2 as stated: the collector's BNLIT branch strips
the caption of the line `"1.png #"` to the empty string and inserts it
(lines 284-288 check neither part for emptiness), so an empty caption string
appears in a returned mapping; and a JSON caption `" "` is truthy, so the
JSON parser keeps it as the single space `" "`, whose trimmed part is
empty. -/
theorem c2_counterexample :
    collectAllCaptionData fsEdgeCaps ("/d".toList) false =
        [(("/d/1.png".toList), [[]])]
      ∧ jsonExtract fsEdgeCaps ("/c.json".toList) [] false =
        [(("a.jpg".toList), [[' ']])] :=
  ⟨rfl, rfl⟩

/-! ## Claim C4 -/

/-- Counterexample to claim C4 as stated: an element carrying both required
keys whose only caption is the falsy empty string yields zero entries — not
one entry with an empty caption list — because line 84 guards the insert
with `if formatted`. -/
theorem c4_counterexample :
    fsFalsyCaption.readJson ("/c.json".toList) =
        some (.arr [.obj [(("filename".toList), .str ("a.jpg".toList)),
                          (("caption".toList), .str [])]])
      ∧ jsonExtract fsFalsyCaption ("/c.json".toList) [] false = [] :=
  ⟨rfl, rfl⟩

/-! ## Claim C10 -/

/-- Counterexample to the contrast half of claim C10 as stated: with a
relative (empty) `images_path`, the text parser still returns an absolute
key when the image name in the file is itself absolute, since
`os.path.join` lets an absolute second argument win. -/
theorem c10_counterexample :
    txtExtract fsAbsName ("/f.txt".toList) [] false =
        [(("/a.png".toList), [("x".toList)])]
      ∧ isAbs ("/a.png".toList) = true ∧ isAbs [] = false :=
  ⟨rfl, rfl, rfl⟩

/-! ## Value-shape invariants for the amended C2 -/

theorem goodTxt_to_goodCol {caps : List (List Char)}
    (h : GoodTxtCaps caps) : GoodColCaps caps :=
  ⟨h.1, fun c hc => (h.2 c hc).2⟩

theorem goodColCaps_append {caps : List (List Char)} {c : List Char}
    (h : GoodColCaps caps) (hc : isTrimmed c = true) :
    GoodColCaps (caps ++ [c]) := by
  refine ⟨by simp, ?_⟩
  intro x hx
  rcases List.mem_append.mp hx with h1 | h1
  · exact h.2 x h1
  · rw [List.mem_singleton] at h1
    subst h1
    exact hc

theorem goodTxtCaps_append {caps : List (List Char)} {c : List Char}
    (h : GoodTxtCaps caps) (hne : c ≠ []) (hc : isTrimmed c = true) :
    GoodTxtCaps (caps ++ [c]) := by
  refine ⟨by simp, ?_⟩
  intro x hx
  rcases List.mem_append.mp hx with h1 | h1
  · exact h.2 x h1
  · rw [List.mem_singleton] at h1
    subst h1
    exact ⟨hne, hc⟩

theorem valsP_goodTxt_txtStep {fs : FS} {ip : List Char} {v : Bool} {d : CDict}
    {raw : List Char} (hd : ValsP GoodTxtCaps d) :
    ValsP GoodTxtCaps (txtStep fs ip v d raw) := by
  unfold txtStep
  dsimp only
  split
  · exact hd
  · split
    · exact hd
    · split
      · exact hd
      · next hne =>
        push_neg at hne
        split
        · refine valsP_sdAppend ?_ ?_ hd
          · exact ⟨by simp, fun c hc => by
              rw [List.mem_singleton] at hc
              subst hc
              exact ⟨hne.2, isTrimmed_strip _⟩⟩
          · exact fun w hw => goodTxtCaps_append hw hne.2 (isTrimmed_strip _)
        · exact hd

theorem valsP_goodJson_jsonGo {fs : FS} {ip : List Char} {v : Bool} :
    ∀ {items : List Json} {d : CDict}, ValsP GoodJsonCaps d →
      ValsP GoodJsonCaps (jsonGo fs ip v items d) := by
  intro items
  induction items with
  | nil => intro d hd; exact hd
  | cons item rest ih =>
    intro d hd
    cases item with
    | obj fields =>
      simp only [jsonGo]
      split
      · exact ih hd
      · split
        · exact ih hd
        · split
          · refine ih ?_
            split
            · split
              · exact hd
              · next hfmt =>
                exact valsP_dictInsert
                  (goodJsonCaps_of_formatted hfmt rfl) hd
            · exact hd
          · exact hd
    | null => exact ih hd
    | bool b => exact ih hd
    | num n => exact ih hd
    | str s => exact ih hd
    | arr xs => exact ih hd

theorem valsP_goodTxt_bnatureCapStep {d : CDict} {raw : List Char}
    (hd : ValsP GoodTxtCaps d) : ValsP GoodTxtCaps (bnatureCapStep d raw) := by
  unfold bnatureCapStep
  dsimp only
  split
  · exact hd
  · split
    · exact hd
    · split
      · next hne =>
        refine valsP_sdAppend ?_ ?_ hd
        · exact ⟨by simp, fun c hc => by
            rw [List.mem_singleton] at hc
            subst hc
            exact ⟨hne.2, isTrimmed_strip _⟩⟩
        · exact fun w hw => goodTxtCaps_append hw hne.2 (isTrimmed_strip _)
      · exact hd

theorem valsP_goodTxt_bnatureCapMapOf (fs : FS) (filePath : List Char) :
    ValsP GoodTxtCaps (bnatureCapMapOf fs filePath) := by
  unfold bnatureCapMapOf bnatureCapMap
  split
  · split
    · exact valsP_nil
    · exact foldl_preserve _ (fun d b hd => valsP_goodTxt_bnatureCapStep hd) _ _ valsP_nil
  · exact valsP_nil

theorem valsP_goodCol_bnatureStep {fs : FS} {v : Bool} {pd : List Char}
    {capMap : CDict} {d : CDict} {name : List Char}
    (hmap : ValsP GoodTxtCaps capMap) (hd : ValsP GoodColCaps d) :
    ValsP GoodColCaps (bnatureStep fs v pd capMap d name) := by
  unfold bnatureStep
  dsimp only
  split
  · exact hd
  · next hne =>
    split
    · refine valsP_dictInsert ?_ hd
      cases hm : dictGet name capMap with
      | none => exact absurd (by rw [hm]; rfl) hne
      | some caps => exact goodTxt_to_goodCol (hmap _ (dictGet_mem hm))
    · exact hd

theorem valsP_goodCol_bnlitStep {fs : FS} {v : Bool} {idir : List Char}
    {d : CDict} {raw : List Char} (hd : ValsP GoodColCaps d) :
    ValsP GoodColCaps (bnlitStep fs v idir d raw) := by
  unfold bnlitStep
  dsimp only
  split
  · exact hd
  · split
    · exact hd
    · split
      · refine valsP_sdAppend ?_ ?_ hd
        · exact ⟨by simp, fun c hc => by
            rw [List.mem_singleton] at hc
            subst hc
            exact isTrimmed_strip _⟩
        · exact fun w hw => goodColCaps_append hw (isTrimmed_strip _)
      · exact hd

theorem valsP_goodCol_bnlitCaptions (fs : FS) (v : Bool) (filePath : List Char) :
    ValsP GoodColCaps (bnlitCaptions fs v filePath) := by
  unfold bnlitCaptions
  dsimp only
  split
  · exact valsP_nil
  · exact foldl_preserve _ (fun d b hd => valsP_goodCol_bnlitStep hd) _ _ valsP_nil

theorem valsP_goodCol_processFile (fs : FS) (v : Bool) (root file : List Char) :
    ValsP GoodColCaps (processFile fs v root file) := by
  unfold processFile
  dsimp only
  split
  · unfold bnatureCaptions
    exact foldl_preserve _
      (fun d b hd => valsP_goodCol_bnatureStep (valsP_goodTxt_bnatureCapMapOf _ _) hd)
      _ _ valsP_nil
  · split
    · exact valsP_goodCol_bnlitCaptions fs v _
    · split
      · split <;> exact valsP_nil
      · exact valsP_nil

theorem valsP_goodCol_collect (fs : FS) (baseDir : List Char) (v : Bool) :
    ValsP GoodColCaps (collectAllCaptionData fs baseDir v) := by
  unfold collectAllCaptionData
  refine foldl_preserve _ ?_ _ _ valsP_nil
  intro d rf hd
  refine foldl_preserve _ ?_ _ _ hd
  intro d2 file hd2
  unfold mergeStep
  split
  · exact valsP_dictUpdate hd2 (valsP_goodCol_processFile fs v rf.1 file)
  · exact hd2

/-- Claim C2 as amended: in every returned mapping each value is a non-empty
caption list; text-parser captions are non-empty and trimmed (so carry no
trailing space); JSON-parser captions are a trimmed string — possibly empty,
since a whitespace-only raw caption is truthy — plus exactly one trailing
space; the collector's captions are trimmed but may be empty, via the BNLIT
branch, which checks neither split part for emptiness. -/
theorem c2_caption_shape (fs : FS) (filePath imagesPath baseDir : List Char)
    (validate : Bool) :
    (∀ k caps, dictGet k (txtExtract fs filePath imagesPath validate) = some caps →
      GoodTxtCaps caps)
    ∧ (∀ k caps, dictGet k (jsonExtract fs filePath imagesPath validate) = some caps →
      GoodJsonCaps caps)
    ∧ (∀ k caps, dictGet k (collectAllCaptionData fs baseDir validate) = some caps →
      GoodColCaps caps) := by
  refine ⟨?_, ?_, ?_⟩
  · intro k caps h
    have hv : ValsP GoodTxtCaps (txtExtract fs filePath imagesPath validate) := by
      unfold txtExtract
      split
      · exact valsP_nil
      · exact foldl_preserve _ (fun d b hd => valsP_goodTxt_txtStep hd) _ _ valsP_nil
    exact hv _ (dictGet_mem h)
  · intro k caps h
    have hv : ValsP GoodJsonCaps (jsonExtract fs filePath imagesPath validate) := by
      unfold jsonExtract
      split
      · exact valsP_goodJson_jsonGo valsP_nil
      · exact valsP_nil
    exact hv _ (dictGet_mem h)
  · intro k caps h
    exact valsP_goodCol_collect fs baseDir validate _ (dictGet_mem h)

/-- Witness for the amended C2: the two-caption text file of `fsTxt` and the
three-caption JSON file of `fsTxt` produce values of the stated shapes. -/
theorem c2_witness :
    GoodTxtCaps [("hello world".toList), ("second caption".toList)]
      ∧ GoodJsonCaps [("one ".toList), ("two ".toList)] :=
  ⟨(c2_caption_shape fsTxt ("/f.txt".toList) ("b".toList) [] true).1
      ("b/a.jpg".toList) _ (by decide),
    (c2_caption_shape fsTxt ("/c.json".toList) [] [] true).2.1
      ("a.jpg".toList) _ (by decide)⟩

end CaptionSpec
